import Mathlib

set_option maxHeartbeats 1000000

/-!
# Verification of the Moon runtime (driver dispatch loop and view reconciliation engine)

This file gives a shallow embedding of the core of `moon.js`:

* the driver registry and the dispatch cycle `run` (lines 111-142 of the source),
* the view reconciliation engine `viewCreate` / `viewPatch` (lines 210-624),
* the default-property cache `removeDataProperty` (lines 171-181),
* the synthetic event dispatcher `MoonEvent` (lines 195-200).

Descriptions (the `NodeNew` values of the source) are modelled by the inductive
type `Val`; the JavaScript strict-equality tests `===` / `!==` that the engine
uses for memoization are modelled by the structural equality `Val.eqb`
(reference equality on JavaScript objects implies structural equality, and for
the primitive values compared here `===` is exactly value equality; function
references are modelled by `Val.handler` identifiers).  DOM elements live in a
heap (`EState.elems`) indexed by `ElemId`, and every imperative DOM effect the
engine performs is recorded in an effect trace (`EState.trace`) so that claims
about which effects happen, and how often, can be stated exactly.
-/

/-- A JavaScript value as used by the Moon view driver: `undef` is `undefined`,
`str`/`boolv` are primitives, `smap` is a string-to-string object (the values
of `ariaset`, `dataset` and `style`), `handler` is a function reference
(identified by a number, modelling reference identity), `node` is a view node
(`NodeNew` in the source: a `name` and a `data` object), and `nodes` is an
array of view nodes (the value of a `children` key). -/
inductive Val : Type where
  | undef : Val
  | str : String → Val
  | boolv : Bool → Val
  | smap : List (String × String) → Val
  | handler : Nat → Val
  | node : String → List (String × Val) → Val
  | nodes : List Val → Val

instance : Inhabited Val := ⟨Val.undef⟩

/-- `node.name` in the source (`undefined`-ish for non-node values). -/
def vname : Val → String
  | .node nm _ => nm
  | _ => ""

/-- `node.data` in the source. -/
def vdata : Val → List (String × Val)
  | .node _ d => d
  | _ => []

/-- Read a `children` value as an array of nodes. -/
def valNodes : Val → List Val
  | .nodes l => l
  | _ => []

/-- Read an `ariaset`/`dataset`/`style` value as a string map. -/
def smapOf : Val → List (String × String)
  | .smap m => m
  | _ => []

/-- JavaScript truthiness of a value (used by the `focus` attribute). -/
def Val.truthy : Val → Bool
  | .undef => false
  | .boolv b => b
  | .str s => !(s = "")
  | .smap _ => true
  | .handler _ => true
  | .node _ _ => true
  | .nodes _ => true

/-- Association-list lookup, modelling JavaScript property access `m[k]`
(objects have unique keys, so first-match lookup is exact). -/
def lookupKV {α : Type} (m : List (String × α)) (k : String) : Option α :=
  match m with
  | [] => none
  | (k1, v) :: rest => if k1 = k then some v else lookupKV rest k

/-- JavaScript `k in m`. -/
def hasKey {α : Type} (m : List (String × α)) (k : String) : Bool :=
  (lookupKV m k).isSome

/-- `m[k]` where a missing key reads as `undefined`. -/
def lookupVal (m : List (String × Val)) (k : String) : Val :=
  (lookupKV m k).getD Val.undef

/-- JavaScript object assignment `m[k] = v`: updates the existing binding in
place, or appends a new binding (insertion order is preserved). -/
def setKV {α : Type} (m : List (String × α)) (k : String) (v : α) : List (String × α) :=
  match m with
  | [] => [(k, v)]
  | (k1, v1) :: rest => if k1 = k then (k1, v) :: rest else (k1, v1) :: setKV rest k v

/-- JavaScript `delete m[k]`. -/
def delKV {α : Type} (m : List (String × α)) (k : String) : List (String × α) :=
  match m with
  | [] => []
  | (k1, v1) :: rest => if k1 = k then rest else (k1, v1) :: delKV rest k

/-- The keys of an object are pairwise distinct (always true of a JavaScript
object, stated here because the embedding uses association lists). -/
def keysNodup {α : Type} : List (String × α) → Bool
  | [] => true
  | (k, _) :: rest => !hasKey rest k && keysNodup rest

/-- `valueOld[i]` for a `children` value (`undefined` out of range or when the
old value is not an array). -/
def childAt (v : Val) (i : Nat) : Val :=
  match v with
  | .nodes l => l.getD i .undef
  | _ => Val.undef

/-- `key.charCodeAt(0) === 64`: the key starts with the event sigil `@`. -/
def isEventKey (k : String) : Bool :=
  match k.data with
  | c :: _ => c = '@'
  | [] => false

/-- `key.slice(1)`: the event type of an event-sigil key. -/
def sliceOne (k : String) : String :=
  ⟨k.data.drop 1⟩

mutual

/-- Structural equality of values, modelling the JavaScript `===` used by the
patch engine for its identity-based memoization (same reference implies
structural equality; on the primitives compared by the engine `===` is value
equality). -/
def Val.eqb : Val → Val → Bool
  | .undef, .undef => true
  | .str a, .str b => a = b
  | .boolv a, .boolv b => a = b
  | .smap a, .smap b => a = b
  | .handler a, .handler b => a = b
  | .node n1 d1, .node n2 d2 => n1 = n2 && Val.eqbData d1 d2
  | .nodes l1, .nodes l2 => Val.eqbList l1 l2
  | _, _ => false

/-- Structural equality of `data` objects. -/
def Val.eqbData : List (String × Val) → List (String × Val) → Bool
  | [], [] => true
  | (k1, v1) :: r1, (k2, v2) :: r2 => k1 = k2 && Val.eqb v1 v2 && Val.eqbData r1 r2
  | _, _ => false

/-- Structural equality of node arrays. -/
def Val.eqbList : List Val → List Val → Bool
  | [], [] => true
  | a :: as, b :: bs => Val.eqb a b && Val.eqbList as bs
  | _, _ => false

end

/-- Identifier of a DOM element in the heap (reference identity of the
mutable element object). -/
abbrev ElemId := Nat

/-- A DOM element (or text node): the mutable external resource.  `props` is
the generic property space written by `element[key] = value` (including
`className` and `htmlFor`), `attrs` is the `setAttribute` space (the `aria-*`
attributes), `dataset` and `style` are the corresponding sub-objects,
`listeners` records the event types with an installed native listener,
`moonEvent` is the lazily attached `MoonEvent` dispatcher (a map from sigil
key to the bound handler), `childElems` are the element children in order and
`focused` is the focus state. -/
structure Elem where
  tag : String
  text : Bool := false
  textData : Val := .undef
  props : List (String × Val) := []
  attrs : List (String × String) := []
  dataset : List (String × String) := []
  style : List (String × String) := []
  listeners : List String := []
  moonEvent : Option (List (String × Val)) := none
  childElems : List ElemId := []
  focused : Bool := false

instance : Inhabited Elem := ⟨{ tag := "" }⟩

/-- One imperative DOM effect performed by the engine.  Every call the engine
makes into the DOM API is recorded as exactly one of these. -/
inductive Eff : Type where
  | createElement (id : ElemId) (tag : String)
  | createText (id : ElemId) (data : Val)
  | createBlank (tag : String) (id : ElemId)
  | setProp (id : ElemId) (k : String) (v : Val)
  | setAttr (id : ElemId) (k v : String)
  | removeAttr (id : ElemId) (k : String)
  | setDataset (id : ElemId) (k v : String)
  | delDataset (id : ElemId) (k : String)
  | setStyle (id : ElemId) (k v : String)
  | addListener (id : ElemId) (t : String)
  | removeListener (id : ElemId) (t : String)
  | appendChild (parent child : ElemId)
  | removeChild (parent child : ElemId)
  | replaceChild (parent : Option ElemId) (neu old : ElemId)
  | focusEl (id : ElemId)
  | blurEl (id : ElemId)

/-- The external state threaded through the engine: the element heap, a
counter allocating identities for the mutable `children` arrays of old nodes,
the default-property cache `removeDataPropertyCache` (tag name to cached blank
element) and the trace of all DOM effects performed so far, in order. -/
structure EState where
  elems : List Elem := []
  nextArr : Nat := 0
  cache : List (String × ElemId) := []
  trace : List Eff := []

/-- The empty initial state (process start: no elements, empty cache). -/
def initES : EState := {}

/-- Record a DOM effect. -/
def emit (s : EState) (e : Eff) : EState :=
  { s with trace := s.trace ++ [e] }

/-- Allocate a fresh element (`document.createElement` /
`document.createTextNode`). -/
def allocElem (s : EState) (el : Elem) : ElemId × EState :=
  (s.elems.length, { s with elems := s.elems ++ [el] })

/-- Dereference an element id. -/
def elemAt (s : EState) (i : ElemId) : Elem :=
  s.elems.getD i default

/-- Mutate the element behind an id. -/
def updateElem (s : EState) (i : ElemId) (f : Elem → Elem) : EState :=
  { s with elems := s.elems.set i (f (elemAt s i)) }

/-- Allocate a fresh identity for a mutable `children` array. -/
def allocArr (s : EState) : Nat × EState :=
  (s.nextArr, { s with nextArr := s.nextArr + 1 })

/-- `element[key] = value` together with its trace record. -/
def setPropEl (s : EState) (e : ElemId) (k : String) (v : Val) : EState :=
  emit (updateElem s e fun el => { el with props := setKV el.props k v }) (.setProp e k v)

/-- An old node (`NodeOld` in the source): the mutable reconciliation record
pairing the last applied description `node` with the live `element`; the
mutable `children` array carries the identity tag `arrId` (the reference
identity of the array object, which `viewPatch` replaces only on a structural
replacement and otherwise mutates in place). -/
inductive NodeOld : Type where
  | mk (node : Val) (element : ElemId) (arrId : Nat) (children : List NodeOld)

instance : Inhabited NodeOld := ⟨.mk .undef 0 0 []⟩

/-- The record's last applied description. -/
def NodeOld.node : NodeOld → Val
  | .mk n _ _ _ => n

/-- The record's live element. -/
def NodeOld.element : NodeOld → ElemId
  | .mk _ e _ _ => e

/-- The identity of the record's mutable children array. -/
def NodeOld.arrId : NodeOld → Nat
  | .mk _ _ a _ => a

/-- The record's child records. -/
def NodeOld.children : NodeOld → List NodeOld
  | .mk _ _ _ cs => cs

/-- `removeDataProperty` (source lines 171-181): restore a generic property to
its factory default by reading it off a cached blank element of the same tag
name, constructing and caching that blank element on the first request for
this tag. -/
def removeDataProperty (e : ElemId) (name k : String) (s : EState) : EState :=
  match lookupKV s.cache name with
  | some b => setPropEl s e k (lookupVal (elemAt s b).props k)
  | none =>
    let (b, s1) := allocElem s { tag := name }
    let s2 := emit s1 (.createBlank name b)
    let s3 := { s2 with cache := s2.cache ++ [(name, b)] }
    setPropEl s3 e k (lookupVal (elemAt s3 b).props k)

/-- Setting an event listener during `viewCreate` (source lines 227-236):
lazily attach the `MoonEvent` dispatcher, bind the handler under the sigil
key, and install the native listener for the event type. -/
def eventCreate (e : ElemId) (k : String) (v : Val) (s : EState) : EState :=
  let s1 := updateElem s e fun el =>
    { el with moonEvent := some (setKV (el.moonEvent.getD []) k v),
              listeners := el.listeners ++ [sliceOne k] }
  emit s1 (.addListener e (sliceOne k))

/-- Updating an event during `viewPatch` (source lines 356-371): attach the
dispatcher if missing; if the sigil key is already bound only replace the
bound handler, otherwise bind it and install the native listener. -/
def eventPatch (e : ElemId) (k : String) (vNew : Val) (s : EState) : EState :=
  let m := (elemAt s e).moonEvent.getD []
  if hasKey m k then
    updateElem s e fun el => { el with moonEvent := some (setKV m k vNew) }
  else
    let s1 := updateElem s e fun el =>
      { el with moonEvent := some (setKV m k vNew), listeners := el.listeners ++ [sliceOne k] }
    emit s1 (.addListener e (sliceOne k))

/-- Apply one non-event, non-`children` data entry during `viewCreate`
(source lines 238-311, all cases except `children`). -/
def createEntryPlain (e : ElemId) (k : String) (v : Val) (s : EState) : EState :=
  match k with
  | "ariaset" =>
    (smapOf v).foldl (fun s p =>
      emit (updateElem s e fun el => { el with attrs := setKV el.attrs ("aria-" ++ p.1) p.2 })
        (.setAttr e ("aria-" ++ p.1) p.2)) s
  | "dataset" =>
    (smapOf v).foldl (fun s p =>
      emit (updateElem s e fun el => { el with dataset := setKV el.dataset p.1 p.2 })
        (.setDataset e p.1 p.2)) s
  | "style" =>
    (smapOf v).foldl (fun s p =>
      emit (updateElem s e fun el => { el with style := setKV el.style p.1 p.2 })
        (.setStyle e p.1 p.2)) s
  | "focus" =>
    if v.truthy then emit (updateElem s e fun el => { el with focused := true }) (.focusEl e)
    else s
  | "class" => setPropEl s e "className" v
  | "for" => setPropEl s e "htmlFor" v
  | _ => setPropEl s e k v

/-- Update the `ariaset`/`dataset`/`style` group attribute during `viewPatch`
(source lines 374-449): apply every changed sub-key of the new value, then
remove every sub-key of the old value that is absent from the new value
(aria: `removeAttribute`; dataset: `delete`; style: reset to `""`). -/
def groupPatch (e : ElemId) (k : String) (vOld vNew : Val) (s : EState) : EState :=
  let subOld : String → Option String := fun sk =>
    match vOld with
    | .undef => none
    | v => lookupKV (smapOf v) sk
  let s1 := (smapOf vNew).foldl (fun s p =>
    if subOld p.1 = some p.2 then s
    else match k with
      | "ariaset" =>
        emit (updateElem s e fun el => { el with attrs := setKV el.attrs ("aria-" ++ p.1) p.2 })
          (.setAttr e ("aria-" ++ p.1) p.2)
      | "dataset" =>
        emit (updateElem s e fun el => { el with dataset := setKV el.dataset p.1 p.2 })
          (.setDataset e p.1 p.2)
      | _ =>
        emit (updateElem s e fun el => { el with style := setKV el.style p.1 p.2 })
          (.setStyle e p.1 p.2)) s
  match vOld with
  | .undef => s1
  | _ =>
    (smapOf vOld).foldl (fun s p =>
      if hasKey (smapOf vNew) p.1 then s
      else match k with
        | "ariaset" =>
          emit (updateElem s e fun el => { el with attrs := delKV el.attrs ("aria-" ++ p.1) })
            (.removeAttr e ("aria-" ++ p.1))
        | "dataset" =>
          emit (updateElem s e fun el => { el with dataset := delKV el.dataset p.1 })
            (.delDataset e p.1)
        | _ =>
          emit (updateElem s e fun el => { el with style := setKV el.style p.1 "" })
            (.setStyle e p.1 "")) s1

/-- Apply one changed non-event, non-`children` data entry during `viewPatch`
(source lines 373-475 and 532-536, all cases except `children`). -/
def patchEntryPlain (e : ElemId) (k : String) (vOld vNew : Val) (s : EState) : EState :=
  match k with
  | "ariaset" => groupPatch e "ariaset" vOld vNew s
  | "dataset" => groupPatch e "dataset" vOld vNew s
  | "style" => groupPatch e "style" vOld vNew s
  | "focus" =>
    if vNew.truthy then emit (updateElem s e fun el => { el with focused := true }) (.focusEl e)
    else emit (updateElem s e fun el => { el with focused := false }) (.blurEl e)
  | "class" => setPropEl s e "className" vNew
  | "for" => setPropEl s e "htmlFor" vNew
  | _ => setPropEl s e k vNew

/-- Process one old data key that is absent from the new data (source lines
546-619): undo the attribute.  Returns the (possibly emptied) child record
list together with the new state. -/
def patchRemoveEntry (e : ElemId) (name : String) (oldData : List (String × Val))
    (children : List NodeOld) (k : String) (s : EState) : List NodeOld × EState :=
  if isEventKey k then
    let s1 := updateElem s e fun el =>
      { el with moonEvent := (el.moonEvent).map (fun m => delKV m k),
                listeners := el.listeners.erase (sliceOne k) }
    (children, emit s1 (.removeListener e (sliceOne k)))
  else match k with
  | "ariaset" =>
    (children, (smapOf (lookupVal oldData k)).foldl (fun s p =>
      emit (updateElem s e fun el => { el with attrs := delKV el.attrs ("aria-" ++ p.1) })
        (.removeAttr e ("aria-" ++ p.1))) s)
  | "dataset" =>
    (children, (smapOf (lookupVal oldData k)).foldl (fun s p =>
      emit (updateElem s e fun el => { el with dataset := delKV el.dataset p.1 })
        (.delDataset e p.1)) s)
  | "focus" =>
    if (lookupVal oldData "focus").truthy then
      (children, emit (updateElem s e fun el => { el with focused := false }) (.blurEl e))
    else (children, s)
  | "class" => (children, setPropEl s e "className" (.str ""))
  | "for" => (children, setPropEl s e "htmlFor" (.str ""))
  | "children" =>
    ([], children.reverse.foldl (fun s c =>
      emit (updateElem s e fun el => { el with childElems := el.childElems.erase c.element })
        (.removeChild e c.element)) s)
  | _ => (children, removeDataProperty e name k s)

/-- The removal loop of `viewPatch` (source lines 544-622): walk the old data
and undo every key that is absent from the new data. -/
def viewPatchRemove (e : ElemId) (name : String) (oldData newData : List (String × Val))
    (children : List NodeOld) (entries : List (String × Val)) (s : EState) :
    List NodeOld × EState :=
  match entries with
  | [] => (children, s)
  | (k, _) :: rest =>
    if hasKey newData k then viewPatchRemove e name oldData newData children rest s
    else
      let (children1, s1) := patchRemoveEntry e name oldData children k s
      viewPatchRemove e name oldData newData children1 rest s1

/-- Find the parent of an element in the heap (`element.parentNode`). -/
def findParent (s : EState) (child : ElemId) : Option ElemId :=
  (List.range s.elems.length).find? (fun i => (elemAt s i).childElems.contains child)

/-- `nodeOldElement.parentNode.replaceChild(newElement, oldElement)` (source
line 344). -/
def replaceInParent (oldE newE : ElemId) (s : EState) : EState :=
  match findParent s oldE with
  | some p =>
    emit (updateElem s p fun el =>
      { el with childElems := el.childElems.map fun c => if c = oldE then newE else c })
      (.replaceChild (some p) newE oldE)
  | none => emit s (.replaceChild none newE oldE)

/-- `MoonEvent.prototype.handleEvent` looks up `this["@" + event.type]` (source
lines 197-200): the handler an event of the given type would run on this
element. -/
def viewDispatch (s : EState) (e : ElemId) (t : String) : Val :=
  match (elemAt s e).moonEvent with
  | some m => lookupVal m ("@" ++ t)
  | none => .undef

mutual

/-- `viewCreate` (source lines 210-319): materialize an element (or text node)
from a description, apply every data entry, and return a fresh old-node
record wrapping the description, the element and the child records. -/
def viewCreate (n : Val) (s : EState) : NodeOld × EState :=
  if vname n = "text" then
    let (e, s1) := allocElem s { tag := "text", text := true, textData := lookupVal (vdata n) "data" }
    let s2 := emit s1 (.createText e (lookupVal (vdata n) "data"))
    let (a, s3) := allocArr s2
    (.mk n e a [], s3)
  else
    let (e, s1) := allocElem s { tag := vname n }
    let s2 := emit s1 (.createElement e (vname n))
    let (kids, s3) := viewCreateData e (vdata n) s2
    let (a, s4) := allocArr s3
    (.mk n e a kids, s4)
  termination_by ((sizeOf n, 2, 0) : Nat × Nat × Nat)
  decreasing_by
    have hle : sizeOf (vdata n) ≤ sizeOf n := by
      cases n <;> simp [vdata] <;> omega
    rcases Nat.lt_or_eq_of_le hle with h | h
    · exact Prod.Lex.left _ _ h
    · rw [h]; exact Prod.Lex.right _ (Prod.Lex.left _ _ (by omega))

/-- The data loop of `viewCreate` (source lines 224-313): apply every data
entry in order, collecting the child records produced by a `children` entry. -/
def viewCreateData (e : ElemId) (entries : List (String × Val)) (s : EState) :
    List NodeOld × EState :=
  match entries with
  | [] => ([], s)
  | (k, v) :: rest =>
    if isEventKey k then viewCreateData e rest (eventCreate e k v s)
    else if k = "children" then
      let (kids1, s1) := viewCreateKids e (valNodes v) s
      let (kids2, s2) := viewCreateData e rest s1
      (kids1 ++ kids2, s2)
    else viewCreateData e rest (createEntryPlain e k v s)
  termination_by ((sizeOf entries, 1, 0) : Nat × Nat × Nat)
  decreasing_by
    all_goals apply Prod.Lex.left
    all_goals
      first
        | (simp only [List.cons.sizeOf_spec, Prod.mk.sizeOf_spec]; omega)
        | (rename_i v hev hk
           cases v <;> simp [valNodes] <;> omega)

/-- The `children` loop of `viewCreate` (source lines 297-301), also used for
the extra new children of a growing `children` patch (source lines 521-526):
create each child in order and append its element to the parent element. -/
def viewCreateKids (e : ElemId) (l : List Val) (s : EState) : List NodeOld × EState :=
  match l with
  | [] => ([], s)
  | c :: rest =>
    let (r, s1) := viewCreate c s
    let s2 := emit (updateElem s1 e fun el => { el with childElems := el.childElems ++ [r.element] })
      (.appendChild e r.element)
    let (rs, s3) := viewCreateKids e rest s2
    (r :: rs, s3)
  termination_by ((sizeOf l, 0, 0) : Nat × Nat × Nat)

/-- `viewPatch` (source lines 329-624): patch an old node into a new
description.  If the names differ, perform a full structural replacement;
otherwise run the update loop over the new data and then the removal loop
over the old data.  The result is the mutated record (whose `node` field is
always the new description). -/
def viewPatch (old : NodeOld) (nNew : Val) (s : EState) : NodeOld × EState :=
  let oldNode := old.node
  let oldName := vname oldNode
  let e := old.element
  if oldName ≠ vname nNew then
    let (fresh, s1) := viewCreate nNew s
    let s2 := replaceInParent e fresh.element s1
    (.mk nNew fresh.element fresh.arrId fresh.children, s2)
  else
    let (kids1, s1) := viewPatchData1 e (vdata oldNode) (vdata nNew) old.children (vdata nNew) s
    let (kids2, s2) := viewPatchRemove e oldName (vdata oldNode) (vdata nNew) kids1 (vdata oldNode) s1
    (.mk nNew e old.arrId kids2, s2)
  termination_by ((sizeOf nNew, 3, 0) : Nat × Nat × Nat)
  decreasing_by
    all_goals
      first
        | exact Prod.Lex.right _ (Prod.Lex.left _ _ (by omega))
        | (have hle : sizeOf (vdata nNew) ≤ sizeOf nNew := by
             cases nNew <;> simp [vdata] <;> omega
           rcases Nat.lt_or_eq_of_le hle with h | h
           · exact Prod.Lex.left _ _ h
           · rw [h]; exact Prod.Lex.right _ (Prod.Lex.left _ _ (by omega)))

/-- The update loop of `viewPatch` (source lines 351-540): walk the new data;
skip a key whose old and new values are identical, and otherwise dispatch on
the key, threading the mutable child record list through the `children`
case. -/
def viewPatchData1 (e : ElemId) (oldData newData : List (String × Val))
    (children : List NodeOld) (entries : List (String × Val)) (s : EState) :
    List NodeOld × EState :=
  match entries with
  | [] => (children, s)
  | (k, _) :: rest =>
    let vOld := lookupVal oldData k
    let vNew := lookupVal newData k
    if Val.eqb vOld vNew then viewPatchData1 e oldData newData children rest s
    else if isEventKey k then
      viewPatchData1 e oldData newData children rest (eventPatch e k vNew s)
    else if k = "children" then
      let (children1, s1) := viewPatchKids e children vOld (valNodes vNew) s
      viewPatchData1 e oldData newData children1 rest s1
    else viewPatchData1 e oldData newData children rest (patchEntryPlain e k vOld vNew s)
  termination_by ((sizeOf newData, 2, entries.length) : Nat × Nat × Nat)
  decreasing_by
    all_goals
      first
        | exact Prod.Lex.right _ (Prod.Lex.right _ (by
            simp only [List.length_cons]; omega))
        | (have hle : ∀ (m : List (String × Val)) (kk : String),
              sizeOf (valNodes (lookupVal m kk)) ≤ sizeOf m := by
             intro m kk
             induction m with
             | nil => simp [lookupVal, lookupKV, valNodes]
             | cons p rest2 ih =>
               rcases p with ⟨k1, v1⟩
               simp only [lookupVal, lookupKV]
               split
               · cases v1 <;> simp [valNodes] <;> omega
               · simp only [lookupVal] at ih
                 have hc : sizeOf ((k1, v1) :: rest2) = 1 + sizeOf (k1, v1) + sizeOf rest2 := by
                   simp
                 omega
           rcases Nat.lt_or_eq_of_le (hle newData k) with h | h
           · exact Prod.Lex.left _ _ h
           · rw [h]; exact Prod.Lex.right _ (Prod.Lex.left _ _ (by omega)))

/-- The `children` case of the update loop (source lines 477-530): compare
the old child-record count with the new child count and dispatch into the
equal / shrinking / growing regime. -/
def viewPatchKids (e : ElemId) (olds : List NodeOld) (vOld : Val) (lNew : List Val)
    (s : EState) : List NodeOld × EState :=
  let m := olds.length
  let n := lNew.length
  if m = n then
    let (res, _, s1) := viewPatchPos e vOld 0 olds lNew s
    (res, s1)
  else if m > n then
    let (kept, leftover, s1) := viewPatchPos e vOld 0 olds lNew s
    (kept, leftover.reverse.foldl (fun s c =>
      emit (updateElem s e fun el => { el with childElems := el.childElems.erase c.element })
        (.removeChild e c.element)) s1)
  else
    viewPatchGrow e vOld 0 olds lNew s
  termination_by ((sizeOf lNew, 1, 0) : Nat × Nat × Nat)

/-- The positional patch loop over index pairs (source lines 487-493 and
498-504): for each index, skip when the old and new child descriptions are
identical, else patch the child record in place.  Returns the processed
records and the unprocessed tail of old records (nonempty exactly in the
shrinking regime). -/
def viewPatchPos (e : ElemId) (vOld : Val) (i : Nat) (olds : List NodeOld)
    (lNew : List Val) (s : EState) : List NodeOld × List NodeOld × EState :=
  match olds, lNew with
  | olds, [] => ([], olds, s)
  | [], _ => ([], [], s)
  | oldc :: os, vN :: vs =>
    if Val.eqb (childAt vOld i) vN then
      let (res, leftover, s1) := viewPatchPos e vOld (i + 1) os vs s
      (oldc :: res, leftover, s1)
    else
      let (oldc1, s1) := viewPatch oldc vN s
      let (res, leftover, s2) := viewPatchPos e vOld (i + 1) os vs s1
      (oldc1 :: res, leftover, s2)
  termination_by ((sizeOf lNew, 0, 0) : Nat × Nat × Nat)

/-- The growing regime of the `children` case (source lines 513-526): patch
the first `oldLen` children positionally, then create each remaining new
child and append it to the parent element and the record list. -/
def viewPatchGrow (e : ElemId) (vOld : Val) (i : Nat) (olds : List NodeOld)
    (lNew : List Val) (s : EState) : List NodeOld × EState :=
  match olds, lNew with
  | _, [] => ([], s)
  | oldc :: os, vN :: vs =>
    if Val.eqb (childAt vOld i) vN then
      let (res, s1) := viewPatchGrow e vOld (i + 1) os vs s
      (oldc :: res, s1)
    else
      let (oldc1, s1) := viewPatch oldc vN s
      let (res, s2) := viewPatchGrow e vOld (i + 1) os vs s1
      (oldc1 :: res, s2)
  | [], vN :: vs =>
    let (r, s1) := viewCreate vN s
    let s2 := emit (updateElem s1 e fun el => { el with childElems := el.childElems ++ [r.element] })
      (.appendChild e r.element)
    let (rs, s3) := viewPatchGrow e vOld (i + 1) [] vs s2
    (r :: rs, s3)
  termination_by ((sizeOf lNew, 0, 0) : Nat × Nat × Nat)

end

/-- An entry of the driver registry, as `run` observes it: `input` is the
result of the driver's `input()` function when the driver has one (`none`
models a driver object without an `"input"` member), and `hasOutput` records
whether the driver object has an `"output"` member. -/
structure MDriver (α : Type) where
  input : Option α
  hasOutput : Bool

/-- The diagnostics reported through `error` during a dispatch cycle
(source lines 121-122, 132-137). -/
inductive MoonError : Type where
  | noInput (driver : String)
  | unknownDriver (driver : String)
  | noOutput (driver : String)
deriving DecidableEq, Repr

/-- One observable step of a dispatch cycle: a reported diagnostic, a call of
a driver's `input()`, the single call of the application, or a call of a
driver's `output(value)`. -/
inductive RunEvent (α : Type) : Type where
  | error (e : MoonError)
  | inputCalled (driver : String)
  | appCalled (input : List (String × α))
  | outputCalled (driver : String) (value : α)
deriving DecidableEq

/-- The input-gathering loop of `run` (source lines 118-126): for every
registered driver in order, check for an `input` member (reporting a
diagnostic when missing) and call it, collecting the results into the input
record.  A driver without an `input` function makes the subsequent call
`drivers[driver].input()` throw a `TypeError`, modelled by `Except.error`. -/
def runInputs {α : Type} (ds : List (String × MDriver α)) :
    List (RunEvent α) × Except Unit (List (String × α)) :=
  match ds with
  | [] => ([], .ok [])
  | (nm, d) :: rest =>
    let errs : List (RunEvent α) := if d.input.isSome then [] else [.error (.noInput nm)]
    match d.input with
    | none => (errs, .error ())
    | some v =>
      let (evs, r) := runInputs rest
      (errs ++ [.inputCalled nm] ++ evs, r.map (fun l => (nm, v) :: l))

/-- The output-distribution loop of `run` (source lines 131-141): for every
key of the output record in order, report a diagnostic if the key names no
registered driver or the driver has no `output` member, and call
`drivers[_driver].output(output[_driver])`.  When the driver is missing the
subsequent member access on `undefined` throws, and when `output` is missing
the call of `undefined` throws: either way the loop is aborted (the `Bool`
result records whether a `TypeError` was thrown). -/
def runOutputs {α : Type} (ds : List (String × MDriver α)) (out : List (String × α)) :
    List (RunEvent α) × Bool :=
  match out with
  | [] => ([], false)
  | (nm, v) :: rest =>
    match lookupKV ds nm with
    | none => ([.error (.unknownDriver nm)], true)
    | some d =>
      if d.hasOutput then
        let (evs, thr) := runOutputs ds rest
        (.outputCalled nm v :: evs, thr)
      else ([.error (.noOutput nm)], true)

/-- `run(root)` (source lines 111-142): gather inputs from every registered
driver, call the application once on the input record, and distribute the
output record to the same-named drivers.  The result is the ordered list of
observable events of the cycle together with a flag recording whether the
cycle was aborted by a thrown `TypeError`. -/
def moonRun {α : Type} (ds : List (String × MDriver α))
    (app : List (String × α) → List (String × α)) : List (RunEvent α) × Bool :=
  let (evs1, r) := runInputs ds
  match r with
  | .error _ => (evs1, true)
  | .ok inputRec =>
    let out := app inputRec
    let (evs2, thr) := runOutputs ds out
    (evs1 ++ [.appCalled inputRec] ++ evs2, thr)

/-- The input record `run` builds when every registered driver has an `input`
function: every driver's input keyed by its name, in registry order. -/
def registryInputs {α : Type} (ds : List (String × MDriver α)) : List (String × α) :=
  ds.foldr (fun p acc => match p.2.input with | some v => (p.1, v) :: acc | none => acc) []

/-- A registry in which every driver has both an `input` and an `output`
function. -/
def wfRegistry {α : Type} (ds : List (String × MDriver α)) : Bool :=
  ds.all fun p => p.2.input.isSome && p.2.hasOutput

/-- The number of children a description implies for the record that applied
it: the length of its `children` attribute, zero when the `children` key is
absent or the node is a text node. -/
def impliedLen (n : Val) : Nat :=
  if vname n = "text" then 0 else (valNodes (lookupVal (vdata n) "children")).length

mutual

/-- The structural invariant of old-node records: the child-record list has
exactly the length implied by the last applied description, recursively. -/
def nodeOldInv : NodeOld → Bool
  | .mk nd _ _ cs => (cs.length = impliedLen nd) && nodeOldInvAll cs

/-- `nodeOldInv` on every record of a list. -/
def nodeOldInvAll : List NodeOld → Bool
  | [] => true
  | c :: rest => nodeOldInv c && nodeOldInvAll rest

end

mutual

/-- Well-formedness of a description, capturing exactly what any JavaScript
value produced by the `m` node constructors satisfies: it is a node, its data
object has pairwise distinct keys, a text node carries no `children` key, and
any `children` value is an array of well-formed nodes. -/
def wfVal : Val → Bool
  | .node nm data => keysNodup data && (if nm = "text" then !hasKey data "children" else true)
      && wfData data
  | _ => false

/-- Well-formedness of the entries of a data object. -/
def wfData : List (String × Val) → Bool
  | [] => true
  | (k, v) :: rest => (if k = "children" then wfKidsVal v else true) && wfData rest

/-- Well-formedness of a `children` value. -/
def wfKidsVal : Val → Bool
  | .nodes l => wfKids l
  | _ => false

/-- Well-formedness of an array of child descriptions. -/
def wfKids : List Val → Bool
  | [] => true
  | c :: rest => wfVal c && wfKids rest

end

/-- Count the blank-element constructions performed for a tag (the
`document.createElement(name)` calls made by `removeDataProperty` on a cache
miss). -/
def cntBlank (t : List Eff) (tag : String) : Nat :=
  t.countP fun e => match e with | .createBlank tg _ => tg = tag | _ => false

/-- Whether the default-property cache holds an entry for a tag. -/
def cacheHas (s : EState) (tag : String) : Bool :=
  hasKey s.cache tag

/-- Count the native-listener installations on an element for an event type
(`addEventListener` calls). -/
def cntAddListener (t : List Eff) (e : ElemId) (ty : String) : Nat :=
  t.countP fun eff => match eff with
    | .addListener i s => i = e && s = ty
    | _ => false

/-- Whether an effect is a style-subkey write (`element.style[k] = v`). -/
def isSetStyle (eff : Eff) : Bool :=
  match eff with | .setStyle _ _ _ => true | _ => false

/-- A single view operation of a process lifetime: one `viewCreate` or one
`viewPatch` of some record. -/
inductive ViewOp : Type where
  | create (n : Val)
  | patch (r : NodeOld) (n : Val)

/-- Execute a sequence of view operations from a state, keeping only the
state (the records produced are irrelevant to the cache accounting). -/
def runViewOps (ops : List ViewOp) (s : EState) : EState :=
  match ops with
  | [] => s
  | .create n :: rest => runViewOps rest (viewCreate n s).2
  | .patch r n :: rest => runViewOps rest (viewPatch r n s).2

/-- The state evolution relation every engine operation satisfies: the trace
only grows, the element heap only grows, elements keep their tag, cache
entries are never removed, and the number of blank constructions per tag
grows exactly with the cache (so a tag that is already cached is never
re-constructed). -/
structure Evolves (s s1 : EState) : Prop where
  trace : ∃ t, s1.trace = s.trace ++ t
  elems : s.elems.length ≤ s1.elems.length
  tags : ∀ i, i < s.elems.length → (elemAt s1 i).tag = (elemAt s i).tag
  cacheMono : ∀ tag, cacheHas s tag = true → cacheHas s1 tag = true
  blank : ∀ tag, cntBlank s1.trace tag + (if cacheHas s tag then 1 else 0)
      = cntBlank s.trace tag + (if cacheHas s1 tag then 1 else 0)

/-! ## Basic lemmas about the embedding -/

mutual

/-- The reachability invariant of old-node records: the stored description is
well-formed and the child-record list has exactly the length implied by it,
recursively. -/
def nodeOldGood : NodeOld → Bool
  | .mk nd _ _ cs => wfVal nd && (cs.length = impliedLen nd) && nodeOldGoodAll cs

/-- `nodeOldGood` on every record of a list. -/
def nodeOldGoodAll : List NodeOld → Bool
  | [] => true
  | c :: rest => nodeOldGood c && nodeOldGoodAll rest

end

/-- Auxiliary for `Val.eqb_eq`: soundness and completeness of structural
equality, by strong induction on size. -/
theorem Val.eqb_eq_aux : ∀ N : Nat,
    (∀ a b : Val, sizeOf a ≤ N → (Val.eqb a b = true ↔ a = b)) ∧
    (∀ d1 d2 : List (String × Val), sizeOf d1 ≤ N → (Val.eqbData d1 d2 = true ↔ d1 = d2)) ∧
    (∀ l1 l2 : List Val, sizeOf l1 ≤ N → (Val.eqbList l1 l2 = true ↔ l1 = l2)) := by
  intro N
  induction N with
  | zero =>
    refine ⟨fun a b h => absurd h ?_, fun d1 d2 h => absurd h ?_, fun l1 l2 h => absurd h ?_⟩
    · cases a <;> simp
    · cases d1 <;> simp
    · cases l1 <;> simp
  | succ N ih =>
    obtain ⟨ihv, ihd, ihl⟩ := ih
    refine ⟨fun a b h => ?_, fun d1 d2 h => ?_, fun l1 l2 h => ?_⟩
    · cases a <;> cases b <;> simp_all [Val.eqb]
      case node.node n1 d1 n2 d2 =>
        have hd : sizeOf d1 ≤ N := by omega
        rw [ihd d1 d2 hd]
        exact fun _ => Iff.rfl
      case nodes.nodes l1 l2 =>
        have hl : sizeOf l1 ≤ N := by omega
        exact ihl l1 l2 hl
    · cases d1 <;> cases d2 <;> simp_all [Val.eqbData]
      case cons.cons p1 r1 p2 r2 =>
        obtain ⟨k1, v1⟩ := p1
        obtain ⟨k2, v2⟩ := p2
        simp only [Val.eqbData, Bool.and_eq_true, decide_eq_true_eq,
          Prod.mk.sizeOf_spec] at *
        have hv : sizeOf v1 ≤ N := by omega
        have hr : sizeOf r1 ≤ N := by omega
        rw [ihv v1 v2 hv, ihd r1 r2 hr]
        constructor
        · rintro ⟨⟨hk, hv2⟩, hr2⟩
          exact ⟨Prod.ext hk hv2, hr2⟩
        · rintro ⟨hp, hr2⟩
          obtain ⟨hk, hv2⟩ := Prod.mk.injEq .. ▸ hp
          exact ⟨⟨hk, hv2⟩, hr2⟩
    · cases l1 <;> cases l2 <;> simp_all [Val.eqbList]
      case cons.cons a r1 b r2 =>
        have hv : sizeOf a ≤ N := by omega
        have hr : sizeOf r1 ≤ N := by omega
        rw [ihv a b hv, ihl r1 r2 hr]

/-- Structural equality decides equality of values. -/
theorem Val.eqb_eq (a b : Val) : Val.eqb a b = true ↔ a = b :=
  (Val.eqb_eq_aux (sizeOf a)).1 a b le_rfl

/-- Structural equality is reflexive (a value compared with itself, the
situation `===` faces when the same reference is compared). -/
theorem Val.eqb_refl (a : Val) : Val.eqb a a = true :=
  (Val.eqb_eq a a).2 rfl

/-- A key present in an object is found by `hasKey`. -/
theorem hasKey_of_mem {α : Type} {m : List (String × α)} {p : String × α}
    (h : p ∈ m) : hasKey m p.1 = true := by
  induction m with
  | nil => cases h
  | cons q rest ih =>
    obtain ⟨k1, v1⟩ := q
    rcases List.mem_cons.mp h with rfl | hm
    · simp [hasKey, lookupKV]
    · simp only [hasKey, lookupKV]
      split
      · rfl
      · exact ih hm

/-- Every old-node record is its four components. -/
theorem NodeOld.eta (r : NodeOld) : r = .mk r.node r.element r.arrId r.children := by
  cases r; rfl

/-- The record returned by `viewPatch` always carries the new description
(`nodeOld.node = nodeNew`, source line 335, in both branches). -/
theorem viewPatch_node (old : NodeOld) (d : Val) (s : EState) :
    ((viewPatch old d s).1).node = d := by
  rw [viewPatch]
  split
  · simp [NodeOld.node]
  · simp [NodeOld.node]

/-- When the old and the new data are the same object, the update loop of
`viewPatch` skips every key and performs no effect. -/
theorem viewPatchData1_self (e : ElemId) (dd : List (String × Val))
    (children : List NodeOld) (entries : List (String × Val)) (s : EState) :
    viewPatchData1 e dd dd children entries s = (children, s) := by
  induction entries generalizing children s with
  | nil => rw [viewPatchData1]
  | cons p rest ih =>
    obtain ⟨k, v⟩ := p
    rw [viewPatchData1]
    simp only [Val.eqb_refl, if_true]
    exact ih children s

/-- When every old key is present in the new data, the removal loop of
`viewPatch` skips every key and performs no effect. -/
theorem viewPatchRemove_self (e : ElemId) (name : String)
    (oldData dd : List (String × Val)) (children : List NodeOld)
    (entries : List (String × Val)) (s : EState)
    (h : ∀ p ∈ entries, hasKey dd p.1 = true) :
    viewPatchRemove e name oldData dd children entries s = (children, s) := by
  induction entries generalizing children s with
  | nil => rw [viewPatchRemove]
  | cons p rest ih =>
    obtain ⟨k, v⟩ := p
    rw [viewPatchRemove]
    simp only [h (k, v) (List.mem_cons_self _ _), if_true]
    apply ih
    intro q hq
    exact h q (List.mem_cons_of_mem _ hq)

/-- C2.  **Identity skip**: for any record `r` and description `d`, patching
`r` with `d` and then patching the result with the same `d` again is
absorbed: the second `patch(r, d)` changes neither the record nor the
external state — in particular it performs zero external effects (no property
assignment, attribute set/remove, listener change, child creation/removal,
focus or blur appears in the trace). -/
theorem patch_identity_skip (r : NodeOld) (d : Val) (s : EState) :
    viewPatch (viewPatch r d s).1 d (viewPatch r d s).2 = viewPatch r d s := by
  have hnode := viewPatch_node r d s
  rcases hq : viewPatch r d s with ⟨r1, s1⟩
  rw [hq] at hnode
  cases r1 with
  | mk nd el ar ch =>
    simp only [NodeOld.node] at hnode
    subst hnode
    have hrm : ∀ kids : List NodeOld,
        viewPatchRemove el (vname nd) (vdata nd) (vdata nd) kids (vdata nd) s1 = (kids, s1) :=
      fun kids => viewPatchRemove_self _ _ _ _ _ _ _ (fun p hp => hasKey_of_mem hp)
    rw [viewPatch]
    simp [NodeOld.node, NodeOld.element, NodeOld.arrId, NodeOld.children,
      viewPatchData1_self, hrm]

/-- C9.  When the old and new descriptions have the same kind, `viewPatch`
never replaces the record's resource handle or its children-array object: the
record refers to the identical element (`element`) and the identical mutable
children array (`arrId`) before and after the patch; only their contents are
mutated. -/
theorem patch_same_kind_keeps_handles (r : NodeOld) (d : Val) (s : EState)
    (h : vname r.node = vname d) :
    ((viewPatch r d s).1).element = r.element ∧ ((viewPatch r d s).1).arrId = r.arrId := by
  rw [viewPatch, if_neg (by simp [h])]
  split
  split
  simp [NodeOld.element, NodeOld.arrId]

/-- A successful lookup returns a binding of the object. -/
theorem lookupKV_mem {α : Type} {m : List (String × α)} {k : String} {v : α}
    (h : lookupKV m k = some v) : (k, v) ∈ m := by
  induction m with
  | nil => simp [lookupKV] at h
  | cons p rest ih =>
    obtain ⟨k1, v1⟩ := p
    simp only [lookupKV] at h
    split at h
    · rename_i heq
      obtain rfl := Option.some.injEq .. ▸ h
      subst heq
      exact List.mem_cons_self _ _
    · exact List.mem_cons_of_mem _ (ih h)

/-- When every registered driver has an `input` function, the input phase of
`run` calls `input()` on every driver in registry order and collects the
results keyed by driver name. -/
theorem runInputs_wf {α : Type} (ds : List (String × MDriver α))
    (h : ∀ p ∈ ds, (p.2).input.isSome = true) :
    runInputs ds = (ds.map (fun p => RunEvent.inputCalled p.1), .ok (registryInputs ds)) := by
  induction ds with
  | nil => simp [runInputs, registryInputs]
  | cons p rest ih =>
    obtain ⟨nm, d⟩ := p
    have hi : d.input.isSome = true := h (nm, d) (List.mem_cons_self _ _)
    obtain ⟨v, hv⟩ := Option.isSome_iff_exists.mp hi
    rw [runInputs]
    rw [ih (fun q hq => h q (List.mem_cons_of_mem _ hq))]
    simp [registryInputs, hv, Except.map]

/-- When every key of the output record resolves to a driver with an `output`
function, the output phase calls `output(value)` on the same-named driver for
every entry in order and nothing is thrown. -/
theorem runOutputs_wf {α : Type} (ds : List (String × MDriver α))
    (out : List (String × α))
    (h : ∀ p ∈ out, ∃ dr, lookupKV ds p.1 = some dr ∧ dr.hasOutput = true) :
    runOutputs ds out = (out.map (fun p => RunEvent.outputCalled p.1 p.2), false) := by
  induction out with
  | nil => simp [runOutputs]
  | cons p rest ih =>
    obtain ⟨nm, v⟩ := p
    obtain ⟨dr, hdr, hou⟩ := h (nm, v) (List.mem_cons_self _ _)
    rw [runOutputs]
    simp only [hdr, hou, if_true, ih (fun q hq => h q (List.mem_cons_of_mem _ hq))]
    simp

/-- C5.  A dispatch cycle on a well-formed registry whose application only
outputs to registered drivers: `run(application)` first calls `input()` on
every registered driver in order, collects the results into a record keyed by
driver name, calls the application exactly once on that record, and then
calls `output(value)` on the same-named driver for every key of the returned
output record, in order; nothing fails. -/
theorem run_dispatch_cycle {α : Type} (ds : List (String × MDriver α))
    (app : List (String × α) → List (String × α))
    (hwf : wfRegistry ds = true)
    (hout : ∀ p ∈ app (registryInputs ds), hasKey ds p.1 = true) :
    moonRun ds app =
      (ds.map (fun p => RunEvent.inputCalled p.1)
        ++ [RunEvent.appCalled (registryInputs ds)]
        ++ (app (registryInputs ds)).map (fun p => RunEvent.outputCalled p.1 p.2),
       false) := by
  have hwf1 : ∀ p ∈ ds, (p.2).input.isSome = true := by
    intro p hp
    have := (List.all_eq_true.mp hwf) p hp
    simp only [Bool.and_eq_true] at this
    exact this.1
  have hwf2 : ∀ p ∈ ds, (p.2).hasOutput = true := by
    intro p hp
    have := (List.all_eq_true.mp hwf) p hp
    simp only [Bool.and_eq_true] at this
    exact this.2
  rw [moonRun]
  rw [runInputs_wf ds hwf1]
  have hres : ∀ p ∈ app (registryInputs ds), ∃ dr, lookupKV ds p.1 = some dr
      ∧ dr.hasOutput = true := by
    intro p hp
    have hk := hout p hp
    simp only [hasKey, Option.isSome_iff_exists] at hk
    obtain ⟨dr, hdr⟩ := hk
    exact ⟨dr, hdr, hwf2 (p.1, dr) (lookupKV_mem hdr)⟩
  simp only [runOutputs_wf ds _ hres]

/-- The output phase up to and including an offending entry: the entries
before it are applied, the diagnostic for the offending entry is reported,
and the loop aborts with a thrown `TypeError` — the offending entry and
everything after it is never applied. -/
theorem runOutputs_abort {α : Type} (ds : List (String × MDriver α))
    (pre post : List (String × α)) (nm : String) (v : α)
    (hpre : ∀ p ∈ pre, ∃ dr, lookupKV ds p.1 = some dr ∧ dr.hasOutput = true)
    (hbad : ∀ dr, lookupKV ds nm = some dr → dr.hasOutput = false) :
    runOutputs ds (pre ++ (nm, v) :: post) =
      (pre.map (fun p => RunEvent.outputCalled p.1 p.2)
        ++ [match lookupKV ds nm with
            | none => RunEvent.error (.unknownDriver nm)
            | some _ => RunEvent.error (.noOutput nm)], true) := by
  induction pre with
  | nil =>
    rw [List.nil_append, runOutputs]
    cases hdr : lookupKV ds nm with
    | none => simp
    | some dr => simp [hbad dr hdr]
  | cons p rest ih =>
    obtain ⟨nm1, v1⟩ := p
    obtain ⟨dr, hdr, hou⟩ := hpre (nm1, v1) (List.mem_cons_self _ _)
    rw [List.cons_append, runOutputs]
    simp only [hdr, hou, if_true, ih (fun q hq => hpre q (List.mem_cons_of_mem _ hq))]
    simp

/-- C1 (amended).  When the output record contains an entry naming an
unregistered driver, or a driver without an `output` function, the failure is
reported — but the offending entry is then still attempted, which throws a
`TypeError`: the entries before the offending one have been applied, and
neither the offending entry nor any later entry (well-formed or not) is
applied; the cycle aborts instead of proceeding. -/
theorem run_output_error_aborts {α : Type} (ds : List (String × MDriver α))
    (app : List (String × α) → List (String × α))
    (pre post : List (String × α)) (nm : String) (v : α)
    (hin : ∀ p ∈ ds, (p.2).input.isSome = true)
    (happ : app (registryInputs ds) = pre ++ (nm, v) :: post)
    (hpre : ∀ p ∈ pre, ∃ dr, lookupKV ds p.1 = some dr ∧ dr.hasOutput = true)
    (hbad : ∀ dr, lookupKV ds nm = some dr → dr.hasOutput = false) :
    moonRun ds app =
      (ds.map (fun p => RunEvent.inputCalled p.1)
        ++ [RunEvent.appCalled (registryInputs ds)]
        ++ pre.map (fun p => RunEvent.outputCalled p.1 p.2)
        ++ [match lookupKV ds nm with
            | none => RunEvent.error (.unknownDriver nm)
            | some _ => RunEvent.error (.noOutput nm)], true) := by
  rw [moonRun, runInputs_wf ds hin]
  simp only [happ, runOutputs_abort ds pre post nm v hpre hbad]
  simp

/-- C1 (counterexample).  The claim "the offending output entry is not
applied, while `output(value)` is still called for every other well-formed
entry" is false: with the registry `{a}` and an application outputting to the
unknown driver `bogus` first and to the well-formed driver `a` second, the
cycle throws after reporting the unknown driver, and `a`'s output is never
called. -/
theorem run_error_counterexample :
    (RunEvent.outputCalled "a" 2
        ∉ (moonRun [("a", ⟨some 0, true⟩)] (fun _ => [("bogus", 1), ("a", 2)])).1)
      ∧ (moonRun [("a", (⟨some 0, true⟩ : MDriver Nat))]
          (fun _ => [("bogus", 1), ("a", 2)])).2 = true := by
  decide

/-- Lookup distributes over append. -/
theorem lookupKV_append {α : Type} (m n : List (String × α)) (k : String) :
    lookupKV (m ++ n) k =
      (match lookupKV m k with | some v => some v | none => lookupKV n k) := by
  induction m with
  | nil => simp [lookupKV]
  | cons p rest ih =>
    obtain ⟨k1, v1⟩ := p
    simp only [List.cons_append, lookupKV]
    split
    · rfl
    · exact ih

theorem Evolves.refl (s : EState) : Evolves s s :=
  ⟨⟨[], by simp⟩, le_rfl, fun _ _ => rfl, fun _ h => h, fun _ => rfl⟩

theorem blank_chain {c1 c2 c3 a b c : Nat} (e1 : c2 + a = c1 + b) (e2 : c3 + b = c2 + c) :
    c3 + a = c1 + c := by omega

theorem Evolves.trans {s1 s2 s3 : EState} (h1 : Evolves s1 s2) (h2 : Evolves s2 s3) :
    Evolves s1 s3 := by
  obtain ⟨⟨t1, ht1⟩, he1, hg1, hc1, hb1⟩ := h1
  obtain ⟨⟨t2, ht2⟩, he2, hg2, hc2, hb2⟩ := h2
  refine ⟨⟨t1 ++ t2, by rw [ht2, ht1, List.append_assoc]⟩, le_trans he1 he2, ?_, ?_, ?_⟩
  · intro i hi
    rw [hg2 i (lt_of_lt_of_le hi he1), hg1 i hi]
  · intro tag h
    exact hc2 tag (hc1 tag h)
  · intro tag
    exact blank_chain (hb1 tag) (hb2 tag)

/-- Emitting an effect that is not a blank construction evolves the state. -/
theorem evolves_emit (s : EState) (eff : Eff)
    (h : ∀ tg i, eff ≠ Eff.createBlank tg i) : Evolves s (emit s eff) := by
  refine ⟨⟨[eff], rfl⟩, le_rfl, fun _ _ => rfl, fun _ hc => hc, ?_⟩
  intro tag
  have hcnt : cntBlank (s.trace ++ [eff]) tag = cntBlank s.trace tag := by
    rw [cntBlank, List.countP_append, List.countP_singleton, cntBlank]
    cases eff <;>
      first
        | (rename_i tg i; exact absurd rfl (h tg i))
        | simp
  show cntBlank (s.trace ++ [eff]) tag + _ = _
  rw [hcnt]
  rfl

/-- Mutating an element without changing its tag evolves the state. -/
theorem evolves_updateElem (s : EState) (i : ElemId) (f : Elem → Elem)
    (h : ∀ el, (f el).tag = el.tag) : Evolves s (updateElem s i f) := by
  refine ⟨⟨[], by simp [updateElem]⟩, by simp [updateElem], ?_, fun _ hc => hc, fun _ => rfl⟩
  intro j hj
  simp only [updateElem, elemAt, List.getD_eq_getElem?_getD]
  rcases eq_or_ne i j with rfl | hne
  · rcases Nat.lt_or_ge i s.elems.length with hi | hi
    · rw [List.getElem?_set_eq hi]
      simp [h, List.getD_eq_getElem?_getD]
    · rw [List.set_eq_of_length_le hi]
  · rw [List.getElem?_set_ne hne]

/-- Allocating an element evolves the state. -/
theorem evolves_allocElem (s : EState) (el : Elem) : Evolves s (allocElem s el).2 := by
  refine ⟨⟨[], by simp [allocElem]⟩, by simp [allocElem], ?_, fun _ hc => hc, fun _ => rfl⟩
  intro j hj
  simp only [allocElem, elemAt, List.getD_eq_getElem?_getD]
  rw [List.getElem?_append_left hj]

/-- Allocating an array identity evolves the state. -/
theorem evolves_allocArr (s : EState) : Evolves s (allocArr s).2 :=
  ⟨⟨[], by simp [allocArr]⟩, le_rfl, fun _ _ => rfl, fun _ hc => hc, fun _ => rfl⟩

/-- `element[key] = value` evolves the state. -/
theorem evolves_setPropEl (s : EState) (e : ElemId) (k : String) (v : Val) :
    Evolves s (setPropEl s e k v) := by
  rw [setPropEl]
  refine Evolves.trans
    (evolves_updateElem s e (fun el => { el with props := setKV el.props k v }) (fun _ => rfl))
    (evolves_emit _ _ ?_)
  intro tg i hx
  exact absurd hx (by simp)

/-- A left fold of evolving steps evolves the state. -/
theorem evolves_foldl {β : Type} (f : EState → β → EState) (l : List β) (s : EState)
    (h : ∀ s1 b, Evolves s1 (f s1 b)) : Evolves s (l.foldl f s) := by
  induction l generalizing s with
  | nil => exact Evolves.refl s
  | cons b rest ih => exact Evolves.trans (h s b) (ih (f s b))

/-- `removeDataProperty` evolves the state: on a cache hit nothing is
constructed, on a cache miss exactly one blank element is constructed and
cached. -/
theorem evolves_removeDataProperty (e : ElemId) (name k : String) (s : EState) :
    Evolves s (removeDataProperty e name k s) := by
  rw [removeDataProperty]
  split
  · exact evolves_setPropEl _ _ _ _
  · rename_i hmiss
    refine Evolves.trans ?_ (evolves_setPropEl _ _ _ _)
    show Evolves s ({ s with
      elems := s.elems ++ [({ tag := name } : Elem)],
      cache := s.cache ++ [(name, s.elems.length)],
      trace := s.trace ++ [Eff.createBlank name s.elems.length] } : EState)
    refine ⟨⟨[Eff.createBlank name s.elems.length], rfl⟩, by simp, ?_, ?_, ?_⟩
    · intro j hj
      simp only [elemAt, List.getD_eq_getElem?_getD]
      rw [List.getElem?_append_left hj]
    · intro tag hc
      simp only [cacheHas, hasKey] at hc ⊢
      simp only [lookupKV_append]
      cases hlk : lookupKV s.cache tag with
      | none => rw [hlk] at hc; simp at hc
      | some b2 => simp
    · intro tag
      have hcnt : cntBlank (s.trace ++ [Eff.createBlank name s.elems.length]) tag
          = cntBlank s.trace tag + (if name = tag then 1 else 0) := by
        rw [cntBlank, List.countP_append, List.countP_singleton, cntBlank]
        by_cases hnt : name = tag <;> simp [hnt]
      show cntBlank (s.trace ++ [Eff.createBlank name s.elems.length]) tag + _
          = cntBlank s.trace tag + _
      rw [hcnt]
      rcases eq_or_ne name tag with rfl | hne
      · have h1 : cacheHas s name = false := by simp [cacheHas, hasKey, hmiss]
        have h2 : cacheHas ({ s with
              elems := s.elems ++ [({ tag := name } : Elem)],
              cache := s.cache ++ [(name, s.elems.length)],
              trace := s.trace ++ [Eff.createBlank name s.elems.length] } : EState) name = true := by
          simp only [cacheHas, hasKey, lookupKV_append, hmiss]
          simp [lookupKV]
        rw [h1, h2]
        simp
      · have h2 : cacheHas ({ s with
              elems := s.elems ++ [({ tag := name } : Elem)],
              cache := s.cache ++ [(name, s.elems.length)],
              trace := s.trace ++ [Eff.createBlank name s.elems.length] } : EState) tag
            = cacheHas s tag := by
          simp only [cacheHas, hasKey, lookupKV_append]
          cases hlk : lookupKV s.cache tag with
          | none => simp [lookupKV, hne]
          | some b2 => simp
        rw [h2, if_neg hne]
        omega

/-- The common shape of one DOM write: mutate an element (keeping its tag) and
record the effect. -/
theorem evolves_upd_emit (s : EState) (e : ElemId) (f : Elem → Elem) (eff : Eff)
    (hf : ∀ el, (f el).tag = el.tag) (he : ∀ tg i, eff ≠ Eff.createBlank tg i) :
    Evolves s (emit (updateElem s e f) eff) :=
  Evolves.trans (evolves_updateElem s e f hf) (evolves_emit _ _ he)

theorem evolves_eventCreate (e : ElemId) (k : String) (v : Val) (s : EState) :
    Evolves s (eventCreate e k v s) := by
  simp only [eventCreate]
  apply evolves_upd_emit
  · intro el; rfl
  · intro tg i; simp

theorem evolves_eventPatch (e : ElemId) (k : String) (vNew : Val) (s : EState) :
    Evolves s (eventPatch e k vNew s) := by
  simp only [eventPatch]
  split
  · exact evolves_updateElem s e _ (fun _ => rfl)
  · apply evolves_upd_emit
    · intro el; rfl
    · intro tg i; simp

theorem evolves_createEntryPlain (e : ElemId) (k : String) (v : Val) (s : EState) :
    Evolves s (createEntryPlain e k v s) := by
  unfold createEntryPlain
  split
  · refine evolves_foldl _ _ _ (fun s1 p => ?_)
    apply evolves_upd_emit
    · intro el; rfl
    · intro tg i; simp
  · refine evolves_foldl _ _ _ (fun s1 p => ?_)
    apply evolves_upd_emit
    · intro el; rfl
    · intro tg i; simp
  · refine evolves_foldl _ _ _ (fun s1 p => ?_)
    apply evolves_upd_emit
    · intro el; rfl
    · intro tg i; simp
  · split
    · apply evolves_upd_emit
      · intro el; rfl
      · intro tg i; simp
    · exact Evolves.refl s
  · exact evolves_setPropEl _ _ _ _
  · exact evolves_setPropEl _ _ _ _
  · exact evolves_setPropEl _ _ _ _

theorem evolves_groupPatch (e : ElemId) (k : String) (vOld vNew : Val) (s : EState) :
    Evolves s (groupPatch e k vOld vNew s) := by
  simp only [groupPatch]
  split
  · refine evolves_foldl _ _ _ (fun s2 p => ?_)
    split
    · exact Evolves.refl s2
    · split
      · apply evolves_upd_emit
        · intro el; rfl
        · intro tg i; simp
      · apply evolves_upd_emit
        · intro el; rfl
        · intro tg i; simp
      · apply evolves_upd_emit
        · intro el; rfl
        · intro tg i; simp
  · refine Evolves.trans (evolves_foldl _ _ _ (fun s2 p => ?_))
      (evolves_foldl _ _ _ (fun s2 p => ?_))
    · split
      · exact Evolves.refl s2
      · split
        · apply evolves_upd_emit
          · intro el; rfl
          · intro tg i; simp
        · apply evolves_upd_emit
          · intro el; rfl
          · intro tg i; simp
        · apply evolves_upd_emit
          · intro el; rfl
          · intro tg i; simp
    · split
      · exact Evolves.refl s2
      · split
        · apply evolves_upd_emit
          · intro el; rfl
          · intro tg i; simp
        · apply evolves_upd_emit
          · intro el; rfl
          · intro tg i; simp
        · apply evolves_upd_emit
          · intro el; rfl
          · intro tg i; simp

theorem evolves_patchEntryPlain (e : ElemId) (k : String) (vOld vNew : Val) (s : EState) :
    Evolves s (patchEntryPlain e k vOld vNew s) := by
  unfold patchEntryPlain
  split
  · exact evolves_groupPatch _ _ _ _ _
  · exact evolves_groupPatch _ _ _ _ _
  · exact evolves_groupPatch _ _ _ _ _
  · split
    · apply evolves_upd_emit
      · intro el; rfl
      · intro tg i; simp
    · apply evolves_upd_emit
      · intro el; rfl
      · intro tg i; simp
  · exact evolves_setPropEl _ _ _ _
  · exact evolves_setPropEl _ _ _ _
  · exact evolves_setPropEl _ _ _ _

theorem evolves_patchRemoveEntry (e : ElemId) (name : String)
    (oldData : List (String × Val)) (children : List NodeOld) (k : String) (s : EState) :
    Evolves s (patchRemoveEntry e name oldData children k s).2 := by
  unfold patchRemoveEntry
  split
  · apply evolves_upd_emit
    · intro el; rfl
    · intro tg i; simp
  · split
    · refine evolves_foldl _ _ _ (fun s1 p => ?_)
      apply evolves_upd_emit
      · intro el; rfl
      · intro tg i; simp
    · refine evolves_foldl _ _ _ (fun s1 p => ?_)
      apply evolves_upd_emit
      · intro el; rfl
      · intro tg i; simp
    · split
      · apply evolves_upd_emit
        · intro el; rfl
        · intro tg i; simp
      · exact Evolves.refl s
    · exact evolves_setPropEl _ _ _ _
    · exact evolves_setPropEl _ _ _ _
    · refine evolves_foldl _ _ _ (fun s1 c => ?_)
      apply evolves_upd_emit
      · intro el; rfl
      · intro tg i; simp
    · exact evolves_removeDataProperty _ _ _ _

theorem evolves_viewPatchRemove (e : ElemId) (name : String)
    (oldData newData : List (String × Val)) (children : List NodeOld)
    (entries : List (String × Val)) (s : EState) :
    Evolves s (viewPatchRemove e name oldData newData children entries s).2 := by
  induction entries generalizing children s with
  | nil => rw [viewPatchRemove]; exact Evolves.refl s
  | cons p rest ih =>
    obtain ⟨k, v⟩ := p
    rw [viewPatchRemove]
    split
    · exact ih children s
    · exact Evolves.trans (evolves_patchRemoveEntry e name oldData children k s) (ih _ _)

theorem evolves_replaceInParent (oldE newE : ElemId) (s : EState) :
    Evolves s (replaceInParent oldE newE s) := by
  rw [replaceInParent]
  split
  · apply evolves_upd_emit
    · intro el; rfl
    · intro tg i; simp
  · apply evolves_emit
    intro tg i
    simp

/-- Sizes: the data of a description is no larger than the description. -/
theorem sizeOf_vdata_le (n : Val) : sizeOf (vdata n) ≤ sizeOf n := by
  cases n <;> simp [vdata] <;> omega

/-- Sizes: a `children` array is no larger than its value. -/
theorem sizeOf_valNodes_le (v : Val) : sizeOf (valNodes v) ≤ sizeOf v := by
  cases v <;> simp [valNodes] <;> omega

/-- Sizes: the `children` array looked up in a data object is no larger than
the data object. -/
theorem sizeOf_lookup_le (m : List (String × Val)) (k : String) :
    sizeOf (valNodes (lookupVal m k)) ≤ sizeOf m := by
  induction m with
  | nil => simp [lookupVal, lookupKV, valNodes]
  | cons p rest ih =>
    obtain ⟨k1, v1⟩ := p
    simp only [lookupVal, lookupKV]
    split
    · have := sizeOf_valNodes_le v1
      simp only [lookupVal] at *
      simp
      omega
    · simp only [lookupVal] at ih
      have hc : sizeOf ((k1, v1) :: rest) = 1 + sizeOf (k1, v1) + sizeOf rest := by simp
      omega

/-- Sizes: a member of a list is smaller than the list. -/
theorem sizeOf_mem_lt {α : Type} [SizeOf α] {c : α} {l : List α} (h : c ∈ l) :
    sizeOf c < sizeOf l :=
  List.sizeOf_lt_of_mem h

/-- Sizes: the value of a data entry is smaller than the data object. -/
theorem sizeOf_entry_lt {k : String} {v : Val} {entries : List (String × Val)}
    (h : (k, v) ∈ entries) : sizeOf v < sizeOf entries := by
  have h1 := List.sizeOf_lt_of_mem h
  have h2 : sizeOf (k, v) = 1 + sizeOf k + sizeOf v := by simp
  omega

theorem evolves_viewCreate_of (n : Val) (s : EState)
    (hd : ∀ e s1, Evolves s1 (viewCreateData e (vdata n) s1).2) :
    Evolves s (viewCreate n s).2 := by
  rw [viewCreate]
  split
  · exact Evolves.trans (evolves_allocElem s _)
      (Evolves.trans (evolves_emit _ _ (by intro tg i; simp)) (evolves_allocArr _))
  · refine Evolves.trans (evolves_allocElem s _)
      (Evolves.trans (evolves_emit _ _ ?_) (Evolves.trans (hd _ _) (evolves_allocArr _)))
    intro tg i; simp

theorem evolves_viewCreateKids_of (e : ElemId) (l : List Val) (s : EState)
    (hc : ∀ c s1, c ∈ l → Evolves s1 (viewCreate c s1).2) :
    Evolves s (viewCreateKids e l s).2 := by
  induction l generalizing s with
  | nil => rw [viewCreateKids]; exact Evolves.refl s
  | cons c rest ih =>
    rw [viewCreateKids]
    refine Evolves.trans (hc c s (List.mem_cons_self _ _))
      (Evolves.trans ?_ (ih _ (fun c1 s1 h1 => hc c1 s1 (List.mem_cons_of_mem _ h1))))
    apply evolves_upd_emit
    · intro el; rfl
    · intro tg i; simp

theorem evolves_viewCreateData_of (e : ElemId) (entries : List (String × Val)) (s : EState)
    (hk : ∀ k v s1, (k, v) ∈ entries → Evolves s1 (viewCreateKids e (valNodes v) s1).2) :
    Evolves s (viewCreateData e entries s).2 := by
  induction entries generalizing s with
  | nil => rw [viewCreateData]; exact Evolves.refl s
  | cons p rest ih =>
    obtain ⟨k, v⟩ := p
    rw [viewCreateData]
    split
    · exact Evolves.trans (evolves_eventCreate e k v s)
        (ih _ (fun k1 v1 s1 h1 => hk k1 v1 s1 (List.mem_cons_of_mem _ h1)))
    · split
      · exact Evolves.trans (hk k v s (List.mem_cons_self _ _))
          (ih _ (fun k1 v1 s1 h1 => hk k1 v1 s1 (List.mem_cons_of_mem _ h1)))
      · exact Evolves.trans (evolves_createEntryPlain e k v s)
          (ih _ (fun k1 v1 s1 h1 => hk k1 v1 s1 (List.mem_cons_of_mem _ h1)))

theorem evolves_viewPatchPos_of (e : ElemId) (vOld : Val) (i : Nat) (olds : List NodeOld)
    (lNew : List Val) (s : EState)
    (hp : ∀ old vN s1, vN ∈ lNew → Evolves s1 (viewPatch old vN s1).2) :
    Evolves s (viewPatchPos e vOld i olds lNew s).2.2 := by
  induction olds generalizing i lNew s with
  | nil =>
    cases lNew with
    | nil => rw [viewPatchPos]; exact Evolves.refl s
    | cons a b => simp only [viewPatchPos]; exact Evolves.refl s
  | cons oldc os ih =>
    cases lNew with
    | nil => rw [viewPatchPos]; exact Evolves.refl s
    | cons vN vs =>
      simp only [viewPatchPos]
      split
      · exact ih _ _ _ (fun o v1 s1 h1 => hp o v1 s1 (List.mem_cons_of_mem _ h1))
      · exact Evolves.trans (hp oldc vN s (List.mem_cons_self _ _))
          (ih _ _ _ (fun o v1 s1 h1 => hp o v1 s1 (List.mem_cons_of_mem _ h1)))

theorem evolves_viewPatchGrow_of (e : ElemId) (vOld : Val) (i : Nat) (olds : List NodeOld)
    (lNew : List Val) (s : EState)
    (hp : ∀ old vN s1, vN ∈ lNew → Evolves s1 (viewPatch old vN s1).2)
    (hc : ∀ vN s1, vN ∈ lNew → Evolves s1 (viewCreate vN s1).2) :
    Evolves s (viewPatchGrow e vOld i olds lNew s).2 := by
  induction lNew generalizing i olds s with
  | nil => rw [viewPatchGrow]; exact Evolves.refl s
  | cons vN vs ih =>
    cases olds with
    | cons oldc os =>
      simp only [viewPatchGrow]
      split
      · exact ih _ _ _ (fun o v1 s1 h1 => hp o v1 s1 (List.mem_cons_of_mem _ h1))
          (fun v1 s1 h1 => hc v1 s1 (List.mem_cons_of_mem _ h1))
      · exact Evolves.trans (hp oldc vN s (List.mem_cons_self _ _))
          (ih _ _ _ (fun o v1 s1 h1 => hp o v1 s1 (List.mem_cons_of_mem _ h1))
            (fun v1 s1 h1 => hc v1 s1 (List.mem_cons_of_mem _ h1)))
    | nil =>
      simp only [viewPatchGrow]
      refine Evolves.trans (hc vN s (List.mem_cons_self _ _))
        (Evolves.trans ?_ (ih _ _ _ (fun o v1 s1 h1 => hp o v1 s1 (List.mem_cons_of_mem _ h1))
          (fun v1 s1 h1 => hc v1 s1 (List.mem_cons_of_mem _ h1))))
      apply evolves_upd_emit
      · intro el; rfl
      · intro tg i; simp

theorem evolves_viewPatchKids_of (e : ElemId) (olds : List NodeOld) (vOld : Val)
    (lNew : List Val) (s : EState)
    (hp : ∀ old vN s1, vN ∈ lNew → Evolves s1 (viewPatch old vN s1).2)
    (hc : ∀ vN s1, vN ∈ lNew → Evolves s1 (viewCreate vN s1).2) :
    Evolves s (viewPatchKids e olds vOld lNew s).2 := by
  rw [viewPatchKids]
  split
  · exact evolves_viewPatchPos_of _ _ _ _ _ _ hp
  · split
    · refine Evolves.trans (evolves_viewPatchPos_of _ _ _ _ _ _ hp)
        (evolves_foldl _ _ _ (fun s1 c => ?_))
      apply evolves_upd_emit
      · intro el; rfl
      · intro tg i; simp
    · exact evolves_viewPatchGrow_of _ _ _ _ _ _ hp hc

theorem evolves_viewPatchData1_of (e : ElemId) (oldData newData : List (String × Val))
    (children : List NodeOld) (entries : List (String × Val)) (s : EState)
    (hk : ∀ ch vO k s1, Evolves s1 (viewPatchKids e ch vO (valNodes (lookupVal newData k)) s1).2) :
    Evolves s (viewPatchData1 e oldData newData children entries s).2 := by
  induction entries generalizing children s with
  | nil => rw [viewPatchData1]; exact Evolves.refl s
  | cons p rest ih =>
    obtain ⟨k, v⟩ := p
    rw [viewPatchData1]
    split
    · exact ih _ _
    · split
      · exact Evolves.trans (evolves_eventPatch _ _ _ _) (ih _ _)
      · split
        · exact Evolves.trans (hk children _ k s) (ih _ _)
        · exact Evolves.trans (evolves_patchEntryPlain _ _ _ _ _) (ih _ _)

theorem evolves_viewPatch_of (old : NodeOld) (nNew : Val) (s : EState)
    (hc : ∀ s1, Evolves s1 (viewCreate nNew s1).2)
    (hd : ∀ e od ch en s1, Evolves s1 (viewPatchData1 e od (vdata nNew) ch en s1).2) :
    Evolves s (viewPatch old nNew s).2 := by
  rw [viewPatch]
  split
  · exact Evolves.trans (hc s) (evolves_replaceInParent _ _ _)
  · exact Evolves.trans (hd _ _ _ _ _) (evolves_viewPatchRemove _ _ _ _ _ _ _)

/-- The master induction: every engine operation evolves the state (trace
append-only, heap grows, tags stable, cache monotone, blank constructions
tracked by the cache), by strong induction on the size of the description
argument. -/
theorem evolves_engine : ∀ K : Nat,
    (∀ n s, sizeOf n ≤ K → Evolves s (viewCreate n s).2) ∧
    (∀ e l s, sizeOf l ≤ K → Evolves s (viewCreateKids e l s).2) ∧
    (∀ e entries s, sizeOf entries ≤ K → Evolves s (viewCreateData e entries s).2) ∧
    (∀ old n s, sizeOf n ≤ K → Evolves s (viewPatch old n s).2) ∧
    (∀ e od nd ch en s, sizeOf nd ≤ K → Evolves s (viewPatchData1 e od nd ch en s).2) ∧
    (∀ e ch vO lN s, sizeOf lN ≤ K → Evolves s (viewPatchKids e ch vO lN s).2) := by
  intro K
  induction K with
  | zero =>
    refine ⟨fun n s h => absurd h ?_, fun e l s h => absurd h ?_,
      fun e en s h => absurd h ?_, fun o n s h => absurd h ?_,
      fun e od nd ch en s h => absurd h ?_, fun e ch vO lN s h => absurd h ?_⟩
    · cases n <;> simp
    · cases l <;> simp
    · cases en <;> simp
    · cases n <;> simp
    · cases nd <;> simp
    · cases lN <;> simp
  | succ K ih =>
    obtain ⟨ihC, ihCK, ihCD, ihP, ihPD, ihPK⟩ := ih
    have hCD : ∀ e entries s, sizeOf entries ≤ K + 1 →
        Evolves s (viewCreateData e entries s).2 := by
      intro e entries s hsz
      refine evolves_viewCreateData_of e entries s (fun k v s1 hm => ?_)
      have hv := sizeOf_entry_lt hm
      have hl := sizeOf_valNodes_le v
      exact ihCK e (valNodes v) s1 (by omega)
    have hC : ∀ n s, sizeOf n ≤ K + 1 → Evolves s (viewCreate n s).2 := by
      intro n s hsz
      refine evolves_viewCreate_of n s (fun e s1 => ?_)
      exact hCD e (vdata n) s1 (le_trans (sizeOf_vdata_le n) hsz)
    have hCK : ∀ e l s, sizeOf l ≤ K + 1 → Evolves s (viewCreateKids e l s).2 := by
      intro e l s hsz
      refine evolves_viewCreateKids_of e l s (fun c s1 hm => ?_)
      have := sizeOf_mem_lt hm
      exact ihC c s1 (by omega)
    have hPK : ∀ e ch vO lN s, sizeOf lN ≤ K + 1 →
        Evolves s (viewPatchKids e ch vO lN s).2 := by
      intro e ch vO lN s hsz
      refine evolves_viewPatchKids_of e ch vO lN s (fun old vN s1 hm => ?_)
        (fun vN s1 hm => ?_)
      · have := sizeOf_mem_lt hm
        exact ihP old vN s1 (by omega)
      · have := sizeOf_mem_lt hm
        exact ihC vN s1 (by omega)
    have hPD : ∀ e od nd ch en s, sizeOf nd ≤ K + 1 →
        Evolves s (viewPatchData1 e od nd ch en s).2 := by
      intro e od nd ch en s hsz
      refine evolves_viewPatchData1_of e od nd ch en s (fun ch1 vO k s1 => ?_)
      exact hPK e ch1 vO _ s1 (le_trans (sizeOf_lookup_le nd k) hsz)
    have hP : ∀ old n s, sizeOf n ≤ K + 1 → Evolves s (viewPatch old n s).2 := by
      intro old n s hsz
      refine evolves_viewPatch_of old n s (fun s1 => hC n s1 hsz) (fun e od ch en s1 => ?_)
      exact hPD e od (vdata n) ch en s1 (le_trans (sizeOf_vdata_le n) hsz)
    exact ⟨hC, hCK, hCD, hP, hPD, hPK⟩

/-- `viewCreate` evolves the state. -/
theorem evolves_viewCreate (n : Val) (s : EState) : Evolves s (viewCreate n s).2 :=
  (evolves_engine (sizeOf n)).1 n s le_rfl

/-- `viewPatch` evolves the state. -/
theorem evolves_viewPatch (old : NodeOld) (n : Val) (s : EState) :
    Evolves s (viewPatch old n s).2 :=
  (evolves_engine (sizeOf n)).2.2.2.1 old n s le_rfl

/-- `viewCreateKids` evolves the state. -/
theorem evolves_viewCreateKids (e : ElemId) (l : List Val) (s : EState) :
    Evolves s (viewCreateKids e l s).2 :=
  (evolves_engine (sizeOf l)).2.1 e l s le_rfl

/-- `viewPatchPos` evolves the state. -/
theorem evolves_viewPatchPos (e : ElemId) (vO : Val) (i : Nat) (ch : List NodeOld)
    (lN : List Val) (s : EState) : Evolves s (viewPatchPos e vO i ch lN s).2.2 :=
  evolves_viewPatchPos_of e vO i ch lN s (fun old vN s1 _ => evolves_viewPatch old vN s1)

/-- A whole process lifetime of view operations evolves the state. -/
theorem evolves_runViewOps (ops : List ViewOp) (s : EState) :
    Evolves s (runViewOps ops s) := by
  induction ops generalizing s with
  | nil => exact Evolves.refl s
  | cons op rest ih =>
    cases op with
    | create n => exact Evolves.trans (evolves_viewCreate n s) (ih _)
    | patch r n => exact Evolves.trans (evolves_viewPatch r n s) (ih _)

/-- An effect already in the trace stays in the trace across any evolution. -/
theorem Evolves.trace_mem {s s1 : EState} (h : Evolves s s1) {eff : Eff}
    (hm : eff ∈ s.trace) : eff ∈ s1.trace := by
  obtain ⟨t, ht⟩ := h.trace
  rw [ht]
  exact List.mem_append_left t hm

/-- `removeDataProperty` on a cache miss: exactly one blank element of the tag
is constructed and cached, and the property is assigned the blank's value
(the factory default, `undefined` in this model of a fresh element). -/
theorem removeDataProperty_miss (e : ElemId) (name k : String) (s : EState)
    (h : cacheHas s name = false) :
    removeDataProperty e name k s =
      setPropEl ({ s with
        elems := s.elems ++ [({ tag := name } : Elem)],
        cache := s.cache ++ [(name, s.elems.length)],
        trace := s.trace ++ [Eff.createBlank name s.elems.length] } : EState)
        e k Val.undef := by
  have hn : lookupKV s.cache name = none := by
    cases hlk : lookupKV s.cache name with
    | none => rfl
    | some b => rw [cacheHas, hasKey, hlk] at h; simp at h
  rw [removeDataProperty, hn]
  show setPropEl ({ s with
      elems := s.elems ++ [({ tag := name } : Elem)],
      cache := s.cache ++ [(name, s.elems.length)],
      trace := s.trace ++ [Eff.createBlank name s.elems.length] } : EState)
    e k (lookupVal (elemAt ({ s with
      elems := s.elems ++ [({ tag := name } : Elem)],
      cache := s.cache ++ [(name, s.elems.length)],
      trace := s.trace ++ [Eff.createBlank name s.elems.length] } : EState)
        s.elems.length).props k)
    = _
  congr 1
  simp only [elemAt, List.getD_eq_getElem?_getD]
  rw [List.getElem?_append_right le_rfl]
  simp [lookupVal, lookupKV]

/-- `removeDataProperty` on a cache hit: nothing is constructed; the property
is assigned the value read off the cached blank element. -/
theorem removeDataProperty_hit (e : ElemId) (name k : String) (s : EState) (b : ElemId)
    (h : lookupKV s.cache name = some b) :
    removeDataProperty e name k s = setPropEl s e k (lookupVal (elemAt s b).props k) := by
  rw [removeDataProperty, h]

/-- In the removal loop, a key that is neither an event key nor one of the
specially handled attributes (`ariaset`, `dataset`, `focus`, `class`, `for`,
`children`) is handled by `removeDataProperty`: the default-restoration path.
Note the absence of a `style` case. -/
theorem patchRemoveEntry_generic (e : ElemId) (name : String)
    (oldData : List (String × Val)) (children : List NodeOld) (k : String) (s : EState)
    (hev : isEventKey k = false)
    (h1 : k ≠ "ariaset") (h2 : k ≠ "dataset") (h3 : k ≠ "focus")
    (h4 : k ≠ "class") (h5 : k ≠ "for") (h6 : k ≠ "children") :
    patchRemoveEntry e name oldData children k s = (children, removeDataProperty e name k s) := by
  unfold patchRemoveEntry
  rw [if_neg (by simp [hev])]
  split <;> simp_all

/-- `removeDataProperty` always ends by assigning the (cached) default value
to the property. -/
theorem setPropEl_sets (s : EState) (e : ElemId) (k : String) (v : Val) :
    Eff.setProp e k v ∈ (setPropEl s e k v).trace := by
  simp [setPropEl, emit, updateElem]

theorem removeDataProperty_sets (e : ElemId) (name k : String) (s : EState) :
    ∃ w, Eff.setProp e k w ∈ (removeDataProperty e name k s).trace := by
  rw [removeDataProperty]
  split
  · exact ⟨_, setPropEl_sets _ _ _ _⟩
  · exact ⟨_, setPropEl_sets _ _ _ _⟩

/-- The removal loop assigns a default value to every generic key of the old
data that is missing from the new data. -/
theorem viewPatchRemove_generic_sets (e : ElemId) (name : String)
    (oldData newData : List (String × Val)) (children : List NodeOld)
    (entries : List (String × Val)) (s : EState) (k : String) (v : Val)
    (hmem : (k, v) ∈ entries) (hnk : hasKey newData k = false)
    (hev : isEventKey k = false)
    (h1 : k ≠ "ariaset") (h2 : k ≠ "dataset") (h3 : k ≠ "focus")
    (h4 : k ≠ "class") (h5 : k ≠ "for") (h6 : k ≠ "children") :
    ∃ w, Eff.setProp e k w ∈ (viewPatchRemove e name oldData newData children entries s).2.trace := by
  induction entries generalizing children s with
  | nil => cases hmem
  | cons p rest ih =>
    obtain ⟨k1, v1⟩ := p
    rcases List.mem_cons.mp hmem with hp | hm
    · obtain ⟨rfl, rfl⟩ := Prod.mk.injEq .. ▸ hp
      rw [viewPatchRemove]
      rw [if_neg (by simp [hnk])]
      rw [patchRemoveEntry_generic e name oldData children k s hev h1 h2 h3 h4 h5 h6]
      obtain ⟨w, hw⟩ := removeDataProperty_sets e name k s
      exact ⟨w, (evolves_viewPatchRemove e name oldData newData children rest
        (removeDataProperty e name k s)).trace_mem hw⟩
    · rw [viewPatchRemove]
      split
      · exact ih children s hm
      · exact ih _ _ hm

/-- C7.  **Default-value restoration through the process-wide cache**: (1) in
a same-kind patch, a key of the old data that is absent from the new data and
is neither an event key nor one of the specially handled attributes is
restored by assigning a default value to the property on the record's
element; (2) the restoration reads through the default-value cache: a miss
constructs one blank element of the record's tag, caches it, and assigns the
blank's (factory default) value, while a hit constructs nothing and assigns
the value read off the already cached blank; (3) over any whole process
lifetime of view operations started from the initial state, at most one blank
element is ever constructed per distinct tag. -/
theorem patch_default_value_cache :
    (∀ (r : NodeOld) (d : Val) (s : EState) (k : String) (v : Val),
      vname r.node = vname d → (k, v) ∈ vdata r.node → hasKey (vdata d) k = false →
      isEventKey k = false → k ≠ "ariaset" → k ≠ "dataset" → k ≠ "focus" →
      k ≠ "class" → k ≠ "for" → k ≠ "children" →
      ∃ w, Eff.setProp r.element k w ∈ (viewPatch r d s).2.trace) ∧
    (∀ (e : ElemId) (name k : String) (s : EState), cacheHas s name = false →
      removeDataProperty e name k s =
        setPropEl ({ s with
          elems := s.elems ++ [({ tag := name } : Elem)],
          cache := s.cache ++ [(name, s.elems.length)],
          trace := s.trace ++ [Eff.createBlank name s.elems.length] } : EState)
          e k Val.undef) ∧
    (∀ (e : ElemId) (name k : String) (s : EState) (b : ElemId),
      lookupKV s.cache name = some b →
      removeDataProperty e name k s = setPropEl s e k (lookupVal (elemAt s b).props k)) ∧
    (∀ (ops : List ViewOp) (tag : String),
      cntBlank (runViewOps ops initES).trace tag ≤ 1) := by
  refine ⟨?_, removeDataProperty_miss, removeDataProperty_hit, ?_⟩
  · intro r d s k v hsame hmem hnk hev h1 h2 h3 h4 h5 h6
    rw [viewPatch, if_neg (by simp [hsame])]
    obtain ⟨w, hw⟩ := viewPatchRemove_generic_sets r.element (vname r.node)
      (vdata r.node) (vdata d)
      (viewPatchData1 r.element (vdata r.node) (vdata d) r.children (vdata d) s).1
      (vdata r.node)
      (viewPatchData1 r.element (vdata r.node) (vdata d) r.children (vdata d) s).2
      k v hmem hnk hev h1 h2 h3 h4 h5 h6
    exact ⟨w, hw⟩
  · intro ops tag
    have h := (evolves_runViewOps ops initES).blank tag
    have h0 : cntBlank (initES).trace tag = 0 := by simp [initES, cntBlank]
    have hc0 : cacheHas initES tag = false := by simp [initES, cacheHas, hasKey, lookupKV]
    rw [h0, hc0] at h
    simp only [Bool.false_eq_true, if_false] at h
    split at h <;> omega

/-- Count of style-subkey writes in a trace. -/
def cntStyle (t : List Eff) : Nat := t.countP isSetStyle

theorem cntStyle_emit (s : EState) (eff : Eff) (h : isSetStyle eff = false) :
    cntStyle (emit s eff).trace = cntStyle s.trace := by
  simp [emit, cntStyle, List.countP_append, List.countP_singleton, h]

theorem cntStyle_updateElem (s : EState) (i : ElemId) (f : Elem → Elem) :
    cntStyle (updateElem s i f).trace = cntStyle s.trace := rfl

theorem cntStyle_setPropEl (s : EState) (e : ElemId) (k : String) (v : Val) :
    cntStyle (setPropEl s e k v).trace = cntStyle s.trace := by
  rw [setPropEl, cntStyle_emit] <;> rfl

theorem cntStyle_foldl {β : Type} (f : EState → β → EState) (l : List β) (s : EState)
    (h : ∀ s1 b, cntStyle (f s1 b).trace = cntStyle s1.trace) :
    cntStyle (l.foldl f s).trace = cntStyle s.trace := by
  induction l generalizing s with
  | nil => rfl
  | cons b rest ih => rw [List.foldl_cons, ih (f s b), h s b]

theorem cntStyle_removeDataProperty (e : ElemId) (name k : String) (s : EState) :
    cntStyle (removeDataProperty e name k s).trace = cntStyle s.trace := by
  rw [removeDataProperty]
  split
  · rw [cntStyle_setPropEl]
  · rw [cntStyle_setPropEl]
    show cntStyle (s.trace ++ [Eff.createBlank name s.elems.length]) = _
    simp [cntStyle, List.countP_append, List.countP_singleton, isSetStyle]

/-- The removal loop of `viewPatch` never writes a style sub-key: removing a
`style` attribute is not compensated by resetting its old sub-keys to `""`. -/
theorem cntStyle_patchRemoveEntry (e : ElemId) (name : String)
    (oldData : List (String × Val)) (children : List NodeOld) (k : String) (s : EState) :
    cntStyle (patchRemoveEntry e name oldData children k s).2.trace = cntStyle s.trace := by
  unfold patchRemoveEntry
  split
  · rw [cntStyle_emit] <;> rfl
  · split
    · refine cntStyle_foldl _ _ _ (fun s1 p => ?_)
      rw [cntStyle_emit] <;> rfl
    · refine cntStyle_foldl _ _ _ (fun s1 p => ?_)
      rw [cntStyle_emit] <;> rfl
    · split
      · rw [cntStyle_emit] <;> rfl
      · rfl
    · rw [cntStyle_setPropEl]
    · rw [cntStyle_setPropEl]
    · refine cntStyle_foldl _ _ _ (fun s1 c => ?_)
      rw [cntStyle_emit] <;> rfl
    · rw [cntStyle_removeDataProperty]

theorem cntStyle_viewPatchRemove (e : ElemId) (name : String)
    (oldData newData : List (String × Val)) (children : List NodeOld)
    (entries : List (String × Val)) (s : EState) :
    cntStyle (viewPatchRemove e name oldData newData children entries s).2.trace
      = cntStyle s.trace := by
  induction entries generalizing children s with
  | nil => rw [viewPatchRemove]
  | cons p rest ih =>
    obtain ⟨k, v⟩ := p
    rw [viewPatchRemove]
    split
    · exact ih children s
    · rw [ih _ _, cntStyle_patchRemoveEntry]

/-- C10.  **Removing `style` takes the generic default path**: the removal
loop has no dedicated `style` case, so (1) processing an old `style` key that
is absent from the new data is exactly `removeDataProperty` — the cached
blank-element default is assigned to the `style` property; (2) the removal
loop never writes any style sub-key (no `style[k] = ""` resets); and (3) a
same-kind patch whose old data has `style` and whose new data lacks it
records a generic property assignment to `style` on the record's element. -/
theorem patch_style_removal_generic :
    (∀ (e : ElemId) (name : String) (oldData : List (String × Val))
      (children : List NodeOld) (s : EState),
      patchRemoveEntry e name oldData children "style" s
        = (children, removeDataProperty e name "style" s)) ∧
    (∀ (e : ElemId) (name : String) (oldData newData : List (String × Val))
      (children : List NodeOld) (entries : List (String × Val)) (s : EState),
      cntStyle (viewPatchRemove e name oldData newData children entries s).2.trace
        = cntStyle s.trace) ∧
    (∀ (r : NodeOld) (d : Val) (s : EState) (v : Val),
      vname r.node = vname d → ("style", v) ∈ vdata r.node →
      hasKey (vdata d) "style" = false →
      ∃ w, Eff.setProp r.element "style" w ∈ (viewPatch r d s).2.trace) := by
  refine ⟨?_, cntStyle_viewPatchRemove, ?_⟩
  · intro e name oldData children s
    exact patchRemoveEntry_generic e name oldData children "style" s rfl
      (by decide) (by decide) (by decide) (by decide) (by decide) (by decide)
  · intro r d s v hsame hmem hnk
    exact patch_default_value_cache.1 r d s "style" v hsame hmem hnk rfl
      (by decide) (by decide) (by decide) (by decide) (by decide) (by decide)

/-- The element `viewCreate` materializes is the next fresh heap slot. -/
theorem viewCreate_element (n : Val) (s : EState) :
    (viewCreate n s).1.element = s.elems.length := by
  rw [viewCreate]
  split
  · simp [NodeOld.element, allocElem]
  · simp [NodeOld.element, allocElem]

/-- The records produced by the `children` creation loop all wrap freshly
created elements (no element that already existed is reused). -/
theorem fresh_viewCreateKids (e : ElemId) (l : List Val) (s : EState) :
    ∀ r ∈ (viewCreateKids e l s).1, s.elems.length ≤ r.element := by
  induction l generalizing s with
  | nil => rw [viewCreateKids]; intro r hr; cases hr
  | cons c rest ih =>
    rw [viewCreateKids]
    intro r hr
    rcases List.mem_cons.mp hr with rfl | hm
    · rw [viewCreate_element c s]
    · have h2 := ih (emit (updateElem (viewCreate c s).2 e fun el =>
        { el with childElems := el.childElems ++ [(viewCreate c s).1.element] })
        (.appendChild e (viewCreate c s).1.element)) r hm
      have h3 : s.elems.length ≤ (viewCreate c s).2.elems.length :=
        (evolves_viewCreate c s).elems
      simp only [emit, updateElem] at h2
      simp only [List.length_set] at h2
      omega

/-- The records produced by the data loop of `viewCreate` all wrap freshly
created elements. -/
theorem fresh_viewCreateData (e : ElemId) (entries : List (String × Val)) (s : EState) :
    ∀ r ∈ (viewCreateData e entries s).1, s.elems.length ≤ r.element := by
  induction entries generalizing s with
  | nil => rw [viewCreateData]; intro r hr; cases hr
  | cons p rest ih =>
    obtain ⟨k, v⟩ := p
    rw [viewCreateData]
    split
    · intro r hr
      have h2 := ih (eventCreate e k v s) r hr
      have h3 : s.elems.length ≤ (eventCreate e k v s).elems.length :=
        (evolves_eventCreate e k v s).elems
      omega
    · split
      · intro r hr
        rcases List.mem_append.mp hr with hm | hm
        · exact fresh_viewCreateKids e (valNodes v) s r hm
        · have h2 := ih (viewCreateKids e (valNodes v) s).2 r hm
          have h3 : s.elems.length ≤ (viewCreateKids e (valNodes v) s).2.elems.length :=
            (evolves_viewCreateKids e (valNodes v) s).elems
          omega
      · intro r hr
        have h2 := ih (createEntryPlain e k v s) r hr
        have h3 : s.elems.length ≤ (createEntryPlain e k v s).elems.length :=
          (evolves_createEntryPlain e k v s).elems
        omega

/-- The child records of a freshly created record all wrap freshly created
elements. -/
theorem fresh_viewCreate (n : Val) (s : EState) :
    ∀ r ∈ (viewCreate n s).1.children, s.elems.length ≤ r.element := by
  rw [viewCreate]
  split
  · intro r hr
    simp only [NodeOld.children] at hr
    cases hr
  · intro r hr
    simp only [NodeOld.children] at hr
    have h2 := fresh_viewCreateData (allocElem s ({ tag := vname n } : Elem)).1 (vdata n)
      (emit (allocElem s ({ tag := vname n } : Elem)).2
        (.createElement (allocElem s ({ tag := vname n } : Elem)).1 (vname n))) r hr
    simp only [emit, allocElem, List.length_append, List.length_cons,
      List.length_nil] at h2
    omega

/-- The tag of the element `viewCreate` materializes is the description's
kind (a text node gets the reserved kind `text`). -/
theorem viewCreate_root_tag (n : Val) (s : EState) :
    (elemAt (viewCreate n s).2 s.elems.length).tag = vname n := by
  rw [viewCreate]
  split
  · rename_i ht
    show (elemAt (allocArr (emit (allocElem s ({ tag := "text", text := true, textData := lookupVal (vdata n) "data" } : Elem)).2 (Eff.createText (allocElem s ({ tag := "text", text := true, textData := lookupVal (vdata n) "data" } : Elem)).1 (lookupVal (vdata n) "data")))).2 s.elems.length).tag = vname n
    simp only [allocArr, emit, allocElem, elemAt, List.getD_eq_getElem?_getD]
    rw [List.getElem?_append_right le_rfl]
    simp [ht]
  · show (elemAt (viewCreateData (allocElem s ({ tag := vname n } : Elem)).1 (vdata n) (emit (allocElem s ({ tag := vname n } : Elem)).2 (Eff.createElement (allocElem s ({ tag := vname n } : Elem)).1 (vname n)))).2 s.elems.length).tag = vname n
    have hlt : s.elems.length < (emit (allocElem s ({ tag := vname n } : Elem)).2 (Eff.createElement (allocElem s ({ tag := vname n } : Elem)).1 (vname n))).elems.length := by
      simp [allocElem, emit]
    have hev := ((evolves_engine (sizeOf (vdata n))).2.2.1 (allocElem s ({ tag := vname n } : Elem)).1 (vdata n) (emit (allocElem s ({ tag := vname n } : Elem)).2 (Eff.createElement (allocElem s ({ tag := vname n } : Elem)).1 (vname n))) le_rfl).tags s.elems.length hlt
    rw [hev]
    simp only [emit, allocElem, elemAt, List.getD_eq_getElem?_getD]
    rw [List.getElem?_append_right le_rfl]
    simp

/-- Projection computation rules for old-node records. -/
theorem NodeOld.node_mk (n : Val) (e : ElemId) (a : Nat) (c : List NodeOld) :
    (NodeOld.mk n e a c).node = n := rfl

theorem NodeOld.element_mk (n : Val) (e : ElemId) (a : Nat) (c : List NodeOld) :
    (NodeOld.mk n e a c).element = e := rfl

theorem NodeOld.arrId_mk (n : Val) (e : ElemId) (a : Nat) (c : List NodeOld) :
    (NodeOld.mk n e a c).arrId = a := rfl

theorem NodeOld.children_mk (n : Val) (e : ElemId) (a : Nat) (c : List NodeOld) :
    (NodeOld.mk n e a c).children = c := rfl

/-- `viewCreate` strictly grows the element heap (the root element is always
constructed). -/
theorem viewCreate_elems_gt (n : Val) (s : EState) :
    s.elems.length < (viewCreate n s).2.elems.length := by
  rw [viewCreate]
  split
  · simp [allocArr, emit, allocElem]
  · have h1 := ((evolves_engine (sizeOf (vdata n))).2.2.1 (allocElem s ({ tag := vname n } : Elem)).1 (vdata n) (emit (allocElem s ({ tag := vname n } : Elem)).2 (Eff.createElement (allocElem s ({ tag := vname n } : Elem)).1 (vname n))) le_rfl).elems
    show s.elems.length < (viewCreateData (allocElem s ({ tag := vname n } : Elem)).1 (vdata n) (emit (allocElem s ({ tag := vname n } : Elem)).2 (Eff.createElement (allocElem s ({ tag := vname n } : Elem)).1 (vname n)))).2.elems.length
    simp only [emit, allocElem, List.length_append, List.length_cons, List.length_nil] at h1 ⊢
    omega

/-- C3.  **Structural replacement**: when the old and new descriptions have
different kinds, `viewPatch` performs a full replacement — it creates a fresh
subtree from the new description, substitutes the new resource for the old
one in the external parent, and overwrites the record's resource, array and
children with the fresh ones; no attribute or children diffing happens (the
final state is exactly the creation state plus the parent substitution).  The
new resource is a freshly constructed element of the new kind, distinct from
the old resource, and every new child record wraps a freshly constructed
element (none of the old children's resources is reused). -/
theorem patch_structural_replacement (r : NodeOld) (d : Val) (s : EState)
    (hne : vname r.node ≠ vname d) (hel : r.element < s.elems.length) :
    (viewPatch r d s).1.node = d ∧
    (viewPatch r d s).1.element = (viewCreate d s).1.element ∧
    (viewPatch r d s).1.arrId = (viewCreate d s).1.arrId ∧
    (viewPatch r d s).1.children = (viewCreate d s).1.children ∧
    (viewPatch r d s).1.element = s.elems.length ∧
    (viewPatch r d s).1.element ≠ r.element ∧
    (elemAt (viewPatch r d s).2 (viewPatch r d s).1.element).tag = vname d ∧
    (∀ cr ∈ (viewPatch r d s).1.children, s.elems.length ≤ cr.element) ∧
    (viewPatch r d s).2
      = replaceInParent r.element (viewCreate d s).1.element (viewCreate d s).2 := by
  have hbody : viewPatch r d s
      = (NodeOld.mk d (viewCreate d s).1.element (viewCreate d s).1.arrId
          (viewCreate d s).1.children,
        replaceInParent r.element (viewCreate d s).1.element (viewCreate d s).2) := by
    rw [viewPatch, if_pos hne]
  rw [hbody]
  have helem := viewCreate_element d s
  refine ⟨rfl, rfl, rfl, rfl, helem, ?_, ?_, ?_, rfl⟩
  · show (viewCreate d s).1.element ≠ r.element
    rw [helem]
    intro hf
    rw [hf] at hel
    exact lt_irrefl _ hel
  · simp only [NodeOld.element_mk]
    rw [helem]
    have htags := (evolves_replaceInParent r.element s.elems.length
      (viewCreate d s).2).tags s.elems.length (viewCreate_elems_gt d s)
    rw [htags]
    exact viewCreate_root_tag d s
  · exact fresh_viewCreate d s

/-- The positional patch loop processes exactly `min oldLen newLen` pairs and
leaves the tail of old records beyond the new length untouched as leftover. -/
theorem viewPatchPos_len_leftover (e : ElemId) (vOld : Val) (i : Nat)
    (olds : List NodeOld) (lNew : List Val) (s : EState) :
    (viewPatchPos e vOld i olds lNew s).1.length = min olds.length lNew.length ∧
    (viewPatchPos e vOld i olds lNew s).2.1 = olds.drop lNew.length := by
  induction olds generalizing i lNew s with
  | nil =>
    cases lNew with
    | nil => rw [viewPatchPos]; simp
    | cons a b => simp only [viewPatchPos]; simp
  | cons oldc os ih =>
    cases lNew with
    | nil => rw [viewPatchPos]; simp
    | cons vN vs =>
      simp only [viewPatchPos]
      split
      · obtain ⟨h1, h2⟩ := ih (i + 1) vs s
        constructor
        · show ((viewPatchPos e vOld (i + 1) os vs s).1).length + 1 = _
          rw [h1]
          simp only [List.length_cons]
          omega
        · show (viewPatchPos e vOld (i + 1) os vs s).2.1 = _
          rw [h2]
          rfl
      · obtain ⟨h1, h2⟩ := ih (i + 1) vs (viewPatch oldc vN s).2
        constructor
        · show ((viewPatchPos e vOld (i + 1) os vs (viewPatch oldc vN s).2).1).length + 1 = _
          rw [h1]
          simp only [List.length_cons]
          omega
        · show (viewPatchPos e vOld (i + 1) os vs (viewPatch oldc vN s).2).2.1 = _
          rw [h2]
          rfl

/-- The positional patch loop is positional: at each index, a pair whose old
and new child descriptions are identical is skipped (the record is untouched)
and any other pair is patched in place (the record at that index is the
patch, at some intermediate state, of the record that was there). -/
theorem viewPatchPos_get (e : ElemId) (vOld : Val) (i : Nat)
    (olds : List NodeOld) (lNew : List Val) (s : EState) (j : Nat)
    (hj : j < olds.length) (hj2 : j < lNew.length) :
    (Val.eqb (childAt vOld (i + j)) (lNew.getD j .undef) = true →
      (viewPatchPos e vOld i olds lNew s).1.getD j default = olds.getD j default) ∧
    (Val.eqb (childAt vOld (i + j)) (lNew.getD j .undef) = false →
      ∃ st, (viewPatchPos e vOld i olds lNew s).1.getD j default
        = (viewPatch (olds.getD j default) (lNew.getD j .undef) st).1) := by
  induction olds generalizing i lNew s j with
  | nil => cases hj
  | cons oldc os ih =>
    cases lNew with
    | nil => cases hj2
    | cons vN vs =>
      simp only [viewPatchPos]
      cases j with
      | zero =>
        simp only [Nat.add_zero, List.getD_cons_zero]
        split
        · rename_i heqb
          refine ⟨fun _ => rfl, fun hf => ?_⟩
          rw [heqb] at hf
          cases hf
        · rename_i heqb
          refine ⟨fun ht => ?_, fun _ => ⟨s, rfl⟩⟩
          rw [ht] at heqb
          exact absurd rfl heqb
      | succ j1 =>
        simp only [List.getD_cons_succ]
        have harith : i + (j1 + 1) = (i + 1) + j1 := by omega
        rw [harith]
        split
        · exact ih (i + 1) vs s j1 (by simpa using hj) (by simpa using hj2)
        · exact ih (i + 1) vs (viewPatch oldc vN s).2 j1 (by simpa using hj) (by simpa using hj2)

/-- The growing regime produces one record per new child description. -/
theorem viewPatchGrow_len (e : ElemId) (vOld : Val) (i : Nat) (olds : List NodeOld)
    (lNew : List Val) (s : EState) (h : olds.length ≤ lNew.length) :
    (viewPatchGrow e vOld i olds lNew s).1.length = lNew.length := by
  induction lNew generalizing olds i s with
  | nil => rw [viewPatchGrow]; simp
  | cons vN vs ih =>
    cases olds with
    | cons oldc os =>
      simp only [viewPatchGrow]
      split
      · show ((viewPatchGrow e vOld (i + 1) os vs s).1).length + 1 = _
        rw [ih _ _ _ (by simpa using h)]
        rfl
      · show ((viewPatchGrow e vOld (i + 1) os vs (viewPatch oldc vN s).2).1).length + 1 = _
        rw [ih _ _ _ (by simpa using h)]
        rfl
    | nil =>
      simp only [viewPatchGrow]
      show ((viewPatchGrow e vOld (i + 1) [] vs _).1).length + 1 = _
      rw [ih _ _ _ (by simp)]
      rfl

/-- The growing regime patches the first `oldLen` indices positionally, with
the same skip discipline as the equal-length regime. -/
theorem viewPatchGrow_get (e : ElemId) (vOld : Val) (i : Nat) (olds : List NodeOld)
    (lNew : List Val) (s : EState) (j : Nat)
    (hj : j < olds.length) (hj2 : j < lNew.length) :
    (Val.eqb (childAt vOld (i + j)) (lNew.getD j .undef) = true →
      (viewPatchGrow e vOld i olds lNew s).1.getD j default = olds.getD j default) ∧
    (Val.eqb (childAt vOld (i + j)) (lNew.getD j .undef) = false →
      ∃ st, (viewPatchGrow e vOld i olds lNew s).1.getD j default
        = (viewPatch (olds.getD j default) (lNew.getD j .undef) st).1) := by
  induction olds generalizing i lNew s j with
  | nil => cases hj
  | cons oldc os ih =>
    cases lNew with
    | nil => cases hj2
    | cons vN vs =>
      simp only [viewPatchGrow]
      cases j with
      | zero =>
        simp only [Nat.add_zero, List.getD_cons_zero]
        split
        · rename_i heqb
          refine ⟨fun _ => rfl, fun hf => ?_⟩
          rw [heqb] at hf
          cases hf
        · rename_i heqb
          refine ⟨fun ht => ?_, fun _ => ⟨s, rfl⟩⟩
          rw [ht] at heqb
          exact absurd rfl heqb
      | succ j1 =>
        simp only [List.getD_cons_succ]
        have harith : i + (j1 + 1) = (i + 1) + j1 := by omega
        rw [harith]
        split
        · exact ih (i + 1) vs s j1 (by simpa using hj) (by simpa using hj2)
        · exact ih (i + 1) vs (viewPatch oldc vN s).2 j1 (by simpa using hj) (by simpa using hj2)

/-- The extra children of the growing regime wrap freshly created elements. -/
theorem viewPatchGrow_fresh (e : ElemId) (vOld : Val) (i : Nat) (olds : List NodeOld)
    (lNew : List Val) (s : EState) (j : Nat)
    (hj1 : olds.length ≤ j) (hj2 : j < lNew.length) :
    s.elems.length ≤ ((viewPatchGrow e vOld i olds lNew s).1.getD j default).element := by
  induction lNew generalizing olds i s j with
  | nil => cases hj2
  | cons vN vs ih =>
    cases olds with
    | cons oldc os =>
      have hj0 : j ≠ 0 := by
        intro h0
        rw [h0] at hj1
        simp at hj1
      obtain ⟨j1, rfl⟩ := Nat.exists_eq_succ_of_ne_zero hj0
      simp only [viewPatchGrow]
      split
      · simp only [List.getD_cons_succ]
        exact ih (i + 1) os s j1 (by simpa using hj1) (by simpa using hj2)
      · simp only [List.getD_cons_succ]
        have h1 := ih (i + 1) os (viewPatch oldc vN s).2 j1 (by simpa using hj1)
          (by simpa using hj2)
        have h2 : s.elems.length ≤ (viewPatch oldc vN s).2.elems.length :=
          (evolves_viewPatch oldc vN s).elems
        omega
    | nil =>
      simp only [viewPatchGrow]
      cases j with
      | zero =>
        simp only [List.getD_cons_zero]
        show s.elems.length ≤ ((viewCreate vN s).1).element
        rw [viewCreate_element]
      | succ j1 =>
        simp only [List.getD_cons_succ]
        have h1 := ih (i + 1) [] (emit (updateElem (viewCreate vN s).2 e fun el =>
          { el with childElems := el.childElems ++ [(viewCreate vN s).1.element] })
          (.appendChild e (viewCreate vN s).1.element)) j1 (by simp) (by simpa using hj2)
        have h2 : s.elems.length ≤ (viewCreate vN s).2.elems.length :=
          (evolves_viewCreate vN s).elems
        have h3 : (emit (updateElem (viewCreate vN s).2 e fun el =>
            { el with childElems := el.childElems ++ [(viewCreate vN s).1.element] })
            (.appendChild e (viewCreate vN s).1.element)).elems.length
            = (viewCreate vN s).2.elems.length := by
          simp [emit, updateElem]
        omega

/-- The extra children of the growing regime are appended to the parent
element in index order: their `appendChild` effects occur as a subsequence of
the emitted trace. -/
theorem viewPatchGrow_append_sublist (e : ElemId) (vOld : Val) (i : Nat)
    (olds : List NodeOld) (lNew : List Val) (s : EState) :
    ∃ t, (viewPatchGrow e vOld i olds lNew s).2.trace = s.trace ++ t ∧
      List.Sublist (((viewPatchGrow e vOld i olds lNew s).1.drop olds.length).map
        (fun c => Eff.appendChild e c.element)) t := by
  induction lNew generalizing olds i s with
  | nil =>
    refine ⟨[], by rw [viewPatchGrow]; simp, ?_⟩
    rw [viewPatchGrow]
    simp
  | cons vN vs ih =>
    cases olds with
    | cons oldc os =>
      simp only [viewPatchGrow]
      split
      · obtain ⟨t, ht, hsub⟩ := ih (i + 1) os s
        exact ⟨t, ht, by simpa using hsub⟩
      · obtain ⟨t1, ht1, hsub⟩ := ih (i + 1) os (viewPatch oldc vN s).2
        obtain ⟨t0, ht0⟩ := (evolves_viewPatch oldc vN s).trace
        refine ⟨t0 ++ t1, ?_, ?_⟩
        · show (viewPatchGrow e vOld (i + 1) os vs (viewPatch oldc vN s).2).2.trace = _
          rw [ht1, ht0, List.append_assoc]
        · have h2 : List.Sublist (((viewPatchGrow e vOld (i + 1) os vs
              (viewPatch oldc vN s).2).1.drop os.length).map
              (fun c => Eff.appendChild e c.element)) (t0 ++ t1) :=
            hsub.trans (List.sublist_append_right t0 t1)
          simpa using h2
    | nil =>
      simp only [viewPatchGrow]
      obtain ⟨t1, ht1, hsub⟩ := ih (i + 1) [] (emit (updateElem (viewCreate vN s).2 e fun el =>
        { el with childElems := el.childElems ++ [(viewCreate vN s).1.element] })
        (.appendChild e (viewCreate vN s).1.element))
      obtain ⟨t0, ht0⟩ := (evolves_viewCreate vN s).trace
      refine ⟨t0 ++ [Eff.appendChild e (viewCreate vN s).1.element] ++ t1, ?_, ?_⟩
      · show (viewPatchGrow e vOld (i + 1) [] vs _).2.trace = _
        rw [ht1]
        show (emit (updateElem (viewCreate vN s).2 e _) _).trace ++ t1 = _
        simp only [emit, updateElem, ht0]
        simp [List.append_assoc]
      · simp only [List.length_nil, List.drop_zero] at hsub ⊢
        show List.Sublist (((viewCreate vN s).1
            :: (viewPatchGrow e vOld (i + 1) [] vs _).1).map
          (fun c => Eff.appendChild e c.element)) _
        rw [List.map_cons]
        have hstep : List.Sublist ((Eff.appendChild e (viewCreate vN s).1.element)
            :: ((viewPatchGrow e vOld (i + 1) [] vs _).1.map
              (fun c => Eff.appendChild e c.element)))
            ((Eff.appendChild e (viewCreate vN s).1.element) :: t1) :=
          List.Sublist.cons₂ _ (by simpa using hsub)
        refine hstep.trans ?_
        have heq : (Eff.appendChild e (viewCreate vN s).1.element) :: t1
            = [Eff.appendChild e (viewCreate vN s).1.element] ++ t1 := rfl
        rw [heq, List.append_assoc]
        exact List.sublist_append_right t0 _

/-- The shrink removal loop records exactly one `removeChild` per removed
record, in order. -/
theorem removeFold_trace (e : ElemId) (cs : List NodeOld) (s : EState) :
    (cs.foldl (fun s c =>
      emit (updateElem s e fun el => { el with childElems := el.childElems.erase c.element })
        (.removeChild e c.element)) s).trace
      = s.trace ++ cs.map (fun c => Eff.removeChild e c.element) := by
  induction cs generalizing s with
  | nil => simp
  | cons c rest ih =>
    rw [List.foldl_cons, ih]
    simp [emit, updateElem, List.append_assoc]

/-- Positional patching preserves the element of a same-kind pair (the child
record is patched in place, its resource is not recreated). -/
theorem viewPatchPos_element_preserved (e : ElemId) (vOld : Val) (olds : List NodeOld)
    (lNew : List Val) (s : EState) (j : Nat) (hj : j < olds.length) (hj2 : j < lNew.length)
    (hkind : vname (olds.getD j default).node = vname (lNew.getD j .undef)) :
    ((viewPatchPos e vOld 0 olds lNew s).1.getD j default).element
      = (olds.getD j default).element := by
  obtain ⟨hskip, hpatch⟩ := viewPatchPos_get e vOld 0 olds lNew s j hj hj2
  simp only [Nat.zero_add] at hskip hpatch
  cases heqb : Val.eqb (childAt vOld j) (lNew.getD j .undef) with
  | true => rw [hskip heqb]
  | false =>
    obtain ⟨st, hst⟩ := hpatch heqb
    rw [hst]
    exact (patch_same_kind_keeps_handles _ _ st hkind).1

/-- Same, for the growing regime. -/
theorem viewPatchGrow_element_preserved (e : ElemId) (vOld : Val) (olds : List NodeOld)
    (lNew : List Val) (s : EState) (j : Nat) (hj : j < olds.length) (hj2 : j < lNew.length)
    (hkind : vname (olds.getD j default).node = vname (lNew.getD j .undef)) :
    ((viewPatchGrow e vOld 0 olds lNew s).1.getD j default).element
      = (olds.getD j default).element := by
  obtain ⟨hskip, hpatch⟩ := viewPatchGrow_get e vOld 0 olds lNew s j hj hj2
  simp only [Nat.zero_add] at hskip hpatch
  cases heqb : Val.eqb (childAt vOld j) (lNew.getD j .undef) with
  | true => rw [hskip heqb]
  | false =>
    obtain ⟨st, hst⟩ := hpatch heqb
    rw [hst]
    exact (patch_same_kind_keeps_handles _ _ st hkind).1

/-- C4.  **Children diffing regimes**: patching a `children` attribute with
`oldLen` old child records and `newLen` new child descriptions.  If
`oldLen > newLen`: the first `newLen` records are patched positionally
(reference-identical pairs are skipped entirely, and a same-kind pair keeps
its resource — it is never recreated), and then exactly `oldLen - newLen`
child records are removed and detached from the end (their `removeChild`
effects appear last, in pop order).  If `oldLen < newLen`: the first `oldLen`
records are patched positionally the same way, and then exactly
`newLen - oldLen` new children are created — their elements are all fresh —
and appended to the parent element in index order, and the record list ends
with exactly the new records. -/
theorem patch_children_shrink_grow (e : ElemId) (olds : List NodeOld) (vOld : Val)
    (lNew : List Val) (s : EState) :
    (olds.length > lNew.length →
      (viewPatchKids e olds vOld lNew s).1 = (viewPatchPos e vOld 0 olds lNew s).1 ∧
      (viewPatchKids e olds vOld lNew s).1.length = lNew.length ∧
      (viewPatchKids e olds vOld lNew s).2.trace
        = (viewPatchPos e vOld 0 olds lNew s).2.2.trace
          ++ ((olds.drop lNew.length).reverse.map fun c => Eff.removeChild e c.element) ∧
      (∀ j, j < lNew.length → Val.eqb (childAt vOld j) (lNew.getD j .undef) = true →
        (viewPatchKids e olds vOld lNew s).1.getD j default = olds.getD j default) ∧
      (∀ j, j < lNew.length →
        vname (olds.getD j default).node = vname (lNew.getD j .undef) →
        ((viewPatchKids e olds vOld lNew s).1.getD j default).element
          = (olds.getD j default).element)) ∧
    (olds.length < lNew.length →
      (viewPatchKids e olds vOld lNew s).1.length = lNew.length ∧
      (∀ j, j < olds.length → Val.eqb (childAt vOld j) (lNew.getD j .undef) = true →
        (viewPatchKids e olds vOld lNew s).1.getD j default = olds.getD j default) ∧
      (∀ j, j < olds.length →
        vname (olds.getD j default).node = vname (lNew.getD j .undef) →
        ((viewPatchKids e olds vOld lNew s).1.getD j default).element
          = (olds.getD j default).element) ∧
      (∀ j, olds.length ≤ j → j < lNew.length →
        s.elems.length ≤ ((viewPatchKids e olds vOld lNew s).1.getD j default).element) ∧
      (∃ t, (viewPatchKids e olds vOld lNew s).2.trace = s.trace ++ t ∧
        List.Sublist (((viewPatchKids e olds vOld lNew s).1.drop olds.length).map
          (fun c => Eff.appendChild e c.element)) t)) := by
  constructor
  · intro hgt
    have hbody : viewPatchKids e olds vOld lNew s
        = ((viewPatchPos e vOld 0 olds lNew s).1,
           (viewPatchPos e vOld 0 olds lNew s).2.1.reverse.foldl (fun s c =>
            emit (updateElem s e fun el =>
              { el with childElems := el.childElems.erase c.element })
              (.removeChild e c.element)) (viewPatchPos e vOld 0 olds lNew s).2.2) := by
      rw [viewPatchKids, if_neg (by omega), if_pos hgt]
    obtain ⟨hlen, hleft⟩ := viewPatchPos_len_leftover e vOld 0 olds lNew s
    rw [hbody]
    refine ⟨rfl, ?_, ?_, ?_, ?_⟩
    · show (viewPatchPos e vOld 0 olds lNew s).1.length = _
      rw [hlen]
      omega
    · show ((viewPatchPos e vOld 0 olds lNew s).2.1.reverse.foldl _
        (viewPatchPos e vOld 0 olds lNew s).2.2).trace = _
      rw [removeFold_trace, hleft]
    · intro j hj hskip
      have hj1 : j < olds.length := by omega
      obtain ⟨hs, _⟩ := viewPatchPos_get e vOld 0 olds lNew s j hj1 hj
      simp only [Nat.zero_add] at hs
      exact hs hskip
    · intro j hj hkind
      exact viewPatchPos_element_preserved e vOld olds lNew s j (by omega) hj hkind
  · intro hlt
    have hbody : viewPatchKids e olds vOld lNew s = viewPatchGrow e vOld 0 olds lNew s := by
      rw [viewPatchKids, if_neg (by omega), if_neg (by omega)]
    rw [hbody]
    refine ⟨viewPatchGrow_len e vOld 0 olds lNew s (by omega), ?_, ?_, ?_, ?_⟩
    · intro j hj hskip
      obtain ⟨hs, _⟩ := viewPatchGrow_get e vOld 0 olds lNew s j hj (by omega)
      simp only [Nat.zero_add] at hs
      exact hs hskip
    · intro j hj hkind
      exact viewPatchGrow_element_preserved e vOld olds lNew s j hj (by omega) hkind
    · intro j hj1 hj2
      exact viewPatchGrow_fresh e vOld 0 olds lNew s j hj1 hj2
    · exact viewPatchGrow_append_sublist e vOld 0 olds lNew s

/-- C6.  **Event rebinding**: creating an element with `@click` bound to
handler `a` and then patching the same record to `@click` bound to handler
`b` installs exactly one native `click` listener in total (the rebinding only
replaces the dispatcher's map entry), and the dispatcher afterwards resolves
a fired `click` event to handler `b` — so a later event invokes `b`, and
(when the handlers differ) never `a`. -/
theorem event_rebinding (name : String) (a b : Nat) (hn : ¬ name = "text") :
    cntAddListener (viewPatch (viewCreate (.node name [("@click", .handler a)]) initES).1
        (.node name [("@click", .handler b)])
        (viewCreate (.node name [("@click", .handler a)]) initES).2).2.trace
      (viewCreate (.node name [("@click", .handler a)]) initES).1.element "click" = 1 ∧
    viewDispatch (viewPatch (viewCreate (.node name [("@click", .handler a)]) initES).1
        (.node name [("@click", .handler b)])
        (viewCreate (.node name [("@click", .handler a)]) initES).2).2
      (viewCreate (.node name [("@click", .handler a)]) initES).1.element "click"
      = .handler b := by
  have hiek : isEventKey "@click" = true := by decide
  have hcreate : viewCreate (.node name [("@click", .handler a)]) initES
      = (NodeOld.mk (.node name [("@click", .handler a)]) 0 0 [],
         { elems := [{ tag := name, listeners := ["click"],
                       moonEvent := some [("@click", .handler a)] }],
           nextArr := 1,
           cache := [],
           trace := [Eff.createElement 0 name, Eff.addListener 0 "click"] }) := by
    rw [viewCreate, if_neg (by simpa [vname] using hn)]
    simp only [vname, vdata]
    rw [viewCreateData, if_pos hiek]
    rw [viewCreateData]
    simp [eventCreate, initES, allocElem, emit, updateElem, elemAt, allocArr, setKV,
      sliceOne, vname, vdata]
  have hpatch1 : viewPatchData1 0 [("@click", Val.handler a)] [("@click", Val.handler b)]
      ([] : List NodeOld) [("@click", Val.handler b)]
      ({ elems := [{ tag := name, listeners := ["click"],
                     moonEvent := some [("@click", .handler a)] }],
         nextArr := 1, cache := [],
         trace := [Eff.createElement 0 name, Eff.addListener 0 "click"] } : EState)
      = ([], { elems := [{ tag := name, listeners := ["click"],
                           moonEvent := some [("@click", .handler b)] }],
               nextArr := 1, cache := [],
               trace := [Eff.createElement 0 name, Eff.addListener 0 "click"] }) := by
    rw [viewPatchData1]
    by_cases hab : a = b
    · subst hab
      rw [if_pos (by simp [lookupVal, lookupKV, Val.eqb])]
      rw [viewPatchData1]
    · rw [if_neg (by simp [lookupVal, lookupKV, Val.eqb, hab])]
      rw [if_pos (by decide)]
      rw [viewPatchData1]
      simp [eventPatch, elemAt, hasKey, lookupKV, lookupVal, updateElem, setKV, sliceOne]
  rw [hcreate]
  simp only [NodeOld.element_mk]
  rw [viewPatch]
  rw [if_neg (by simp [NodeOld.node_mk, vname])]
  simp only [NodeOld.node_mk, NodeOld.element_mk, NodeOld.arrId_mk, NodeOld.children_mk,
    vdata, vname]
  rw [hpatch1]
  rw [viewPatchRemove]
  rw [if_pos (by simp [hasKey, lookupKV])]
  rw [viewPatchRemove]
  constructor
  · simp [cntAddListener, List.countP_cons, List.countP_nil]
  · simp [viewDispatch, elemAt, lookupVal, lookupKV]

/-- `nodeOldInvAll` is the pointwise invariant. -/
theorem nodeOldInvAll_iff (cs : List NodeOld) :
    nodeOldInvAll cs = true ↔ ∀ c ∈ cs, nodeOldInv c = true := by
  induction cs with
  | nil => simp [nodeOldInvAll]
  | cons c rest ih =>
    rw [nodeOldInvAll]
    simp only [Bool.and_eq_true, ih]
    constructor
    · rintro ⟨h1, h2⟩ x hx
      rcases List.mem_cons.mp hx with rfl | hm
      · exact h1
      · exact h2 x hm
    · intro h
      exact ⟨h c (List.mem_cons_self _ _), fun x hx => h x (List.mem_cons_of_mem _ hx)⟩

/-- The invariant of a record, componentwise. -/
theorem nodeOldInv_mk (nd : Val) (e : ElemId) (a : Nat) (cs : List NodeOld) :
    nodeOldInv (.mk nd e a cs) = ((cs.length = impliedLen nd : Bool) && nodeOldInvAll cs) := by
  rw [nodeOldInv]

/-- `wfKids` is the pointwise well-formedness. -/
theorem wfKids_iff (l : List Val) : wfKids l = true ↔ ∀ c ∈ l, wfVal c = true := by
  induction l with
  | nil => simp [wfKids]
  | cons c rest ih =>
    rw [wfKids]
    simp only [Bool.and_eq_true, ih]
    constructor
    · rintro ⟨h1, h2⟩ x hx
      rcases List.mem_cons.mp hx with rfl | hm
      · exact h1
      · exact h2 x hm
    · intro h
      exact ⟨h c (List.mem_cons_self _ _), fun x hx => h x (List.mem_cons_of_mem _ hx)⟩

/-- In well-formed data, the `children` value (when any) is a well-formed
array of nodes. -/
theorem wfData_children (m : List (String × Val)) (h : wfData m = true) :
    wfKids (valNodes (lookupVal m "children")) = true := by
  induction m with
  | nil => simp [lookupVal, lookupKV, valNodes, wfKids]
  | cons p rest ih =>
    obtain ⟨k, v⟩ := p
    rw [wfData] at h
    simp only [Bool.and_eq_true] at h
    obtain ⟨h1, h2⟩ := h
    simp only [lookupVal, lookupKV]
    split
    · rename_i heq
      subst heq
      rw [if_pos rfl] at h1
      cases v <;> simp_all [wfKidsVal, valNodes, wfKids]
    · exact ih h2

/-- A non-`children` key of the removal loop leaves the child record list
untouched. -/
theorem patchRemoveEntry_children_other (e : ElemId) (name : String)
    (oldData : List (String × Val)) (children : List NodeOld) (k : String) (s : EState)
    (hk : k ≠ "children") :
    (patchRemoveEntry e name oldData children k s).1 = children := by
  unfold patchRemoveEntry
  split
  · rfl
  · split <;> first | rfl | (split <;> rfl) | simp_all

/-- The `children` key of the removal loop empties the child record list. -/
theorem patchRemoveEntry_children_key (e : ElemId) (name : String)
    (oldData : List (String × Val)) (children : List NodeOld) (s : EState) :
    (patchRemoveEntry e name oldData children "children" s).1 = [] := by
  unfold patchRemoveEntry
  rw [if_neg (by decide)]
  rfl

/-- If every `children` key of the walked entries is still present in the new
data, the removal loop leaves the child record list untouched. -/
theorem viewPatchRemove_children_keep (e : ElemId) (name : String)
    (oldData newData : List (String × Val)) (children : List NodeOld)
    (entries : List (String × Val)) (s : EState)
    (h : ∀ p ∈ entries, p.1 = "children" → hasKey newData p.1 = true) :
    (viewPatchRemove e name oldData newData children entries s).1 = children := by
  induction entries generalizing children s with
  | nil => rw [viewPatchRemove]
  | cons p rest ih =>
    obtain ⟨k, v⟩ := p
    rw [viewPatchRemove]
    split
    · exact ih children s (fun q hq hcq => h q (List.mem_cons_of_mem _ hq) hcq)
    · rename_i hnk
      have hk : k ≠ "children" := fun hc => hnk (h (k, v) (List.mem_cons_self _ _) hc)
      have hre : (patchRemoveEntry e name oldData children k s).1 = children :=
        patchRemoveEntry_children_other e name oldData children k s hk
      cases hpr : patchRemoveEntry e name oldData children k s with
      | mk c1 s1 =>
        have hc1 : c1 = children := by rw [← hre, hpr]
        subst hc1
        exact ih c1 s1 (fun q hq hcq => h q (List.mem_cons_of_mem _ hq) hcq)

/-- From an empty child record list, the removal loop keeps it empty. -/
theorem viewPatchRemove_children_nil (e : ElemId) (name : String)
    (oldData newData : List (String × Val)) (entries : List (String × Val)) (s : EState) :
    (viewPatchRemove e name oldData newData [] entries s).1 = [] := by
  induction entries generalizing s with
  | nil => rw [viewPatchRemove]
  | cons p rest ih =>
    obtain ⟨k, v⟩ := p
    rw [viewPatchRemove]
    split
    · exact ih s
    · cases hpr : patchRemoveEntry e name oldData [] k s with
      | mk c1 s1 =>
        have hc1 : c1 = [] := by
          by_cases hk : k = "children"
          · subst hk
            have hkey := patchRemoveEntry_children_key e name oldData [] s
            rw [hpr] at hkey
            exact hkey
          · have hoth := patchRemoveEntry_children_other e name oldData [] k s hk
            rw [hpr] at hoth
            exact hoth
        subst hc1
        exact ih s1

/-- If the old data has a `children` key that is absent from the new data,
the removal loop empties the child record list. -/
theorem viewPatchRemove_children_drop (e : ElemId) (name : String)
    (oldData newData : List (String × Val)) (children : List NodeOld)
    (entries : List (String × Val)) (s : EState) (v0 : Val)
    (hmem : ("children", v0) ∈ entries) (hnk : hasKey newData "children" = false) :
    (viewPatchRemove e name oldData newData children entries s).1 = [] := by
  induction entries generalizing children s with
  | nil => cases hmem
  | cons p rest ih =>
    obtain ⟨k, v⟩ := p
    rw [viewPatchRemove]
    rcases List.mem_cons.mp hmem with hp | hm
    · have hk : "children" = k := congrArg Prod.fst hp
      subst hk
      rw [if_neg (by simp [hnk])]
      cases hpr : patchRemoveEntry e name oldData children "children" s with
      | mk c1 s1 =>
        have hc1 : c1 = [] := by
          have hkey := patchRemoveEntry_children_key e name oldData children s
          rw [hpr] at hkey
          exact hkey
        subst hc1
        exact viewPatchRemove_children_nil e name oldData newData rest s1
    · split
      · exact ih children s hm
      · cases hpr : patchRemoveEntry e name oldData children k s with
        | mk c1 s1 =>
          exact ih c1 s1 hm

/-- `nodeOldGoodAll` is the pointwise reachability invariant. -/
theorem nodeOldGoodAll_iff (cs : List NodeOld) :
    nodeOldGoodAll cs = true ↔ ∀ c ∈ cs, nodeOldGood c = true := by
  induction cs with
  | nil => simp [nodeOldGoodAll]
  | cons c rest ih =>
    rw [nodeOldGoodAll]
    simp only [Bool.and_eq_true, ih]
    constructor
    · rintro ⟨h1, h2⟩ x hx
      rcases List.mem_cons.mp hx with rfl | hm
      · exact h1
      · exact h2 x hm
    · intro h
      exact ⟨h c (List.mem_cons_self _ _), fun x hx => h x (List.mem_cons_of_mem _ hx)⟩

/-- The reachability invariant of a record, componentwise. -/
theorem nodeOldGood_mk (nd : Val) (e : ElemId) (a : Nat) (cs : List NodeOld) :
    nodeOldGood (.mk nd e a cs)
      = (wfVal nd && (cs.length = impliedLen nd : Bool) && nodeOldGoodAll cs) := by
  rw [nodeOldGood]

/-- The reachability invariant implies the children-length invariant,
recursively. -/
theorem nodeOldGood_inv_aux : ∀ N : Nat,
    (∀ r : NodeOld, sizeOf r ≤ N → nodeOldGood r = true → nodeOldInv r = true) ∧
    (∀ cs : List NodeOld, sizeOf cs ≤ N →
      nodeOldGoodAll cs = true → nodeOldInvAll cs = true) := by
  intro N
  induction N with
  | zero =>
    constructor
    · intro r h
      exact absurd h (by cases r; simp)
    · intro cs h
      exact absurd h (by cases cs <;> simp)
  | succ N ih =>
    constructor
    · intro r hsz hg
      cases r with
      | mk nd e a cs =>
        rw [nodeOldGood] at hg
        simp only [Bool.and_eq_true] at hg
        rw [nodeOldInv]
        simp only [Bool.and_eq_true]
        refine ⟨hg.1.2, ?_⟩
        have hcs : sizeOf cs ≤ N := by
          simp only [NodeOld.mk.sizeOf_spec] at hsz
          omega
        exact ih.2 cs hcs hg.2
    · intro cs hsz hg
      cases cs with
      | nil => rfl
      | cons c rest =>
        rw [nodeOldGoodAll] at hg
        simp only [Bool.and_eq_true] at hg
        rw [nodeOldInvAll]
        simp only [Bool.and_eq_true]
        have h1 : sizeOf c ≤ N := by
          simp only [List.cons.sizeOf_spec] at hsz
          omega
        have h2 : sizeOf rest ≤ N := by
          simp only [List.cons.sizeOf_spec] at hsz
          omega
        exact ⟨ih.1 c h1 hg.1, ih.2 rest h2 hg.2⟩

/-- The reachability invariant implies the children-length invariant. -/
theorem nodeOldGood_inv (r : NodeOld) (h : nodeOldGood r = true) : nodeOldInv r = true :=
  (nodeOldGood_inv_aux (sizeOf r)).1 r le_rfl h

/-- A missing key reads as `undefined`. -/
theorem lookupVal_miss (m : List (String × Val)) (k : String) (h : hasKey m k = false) :
    lookupVal m k = .undef := by
  rw [hasKey] at h
  rw [lookupVal]
  cases hlk : lookupKV m k with
  | none => rfl
  | some v => rw [hlk] at h; simp at h

/-- Unpacking key-distinctness of a nonempty data object. -/
theorem keysNodup_cons {α : Type} (k : String) (v : α) (rest : List (String × α))
    (h : keysNodup ((k, v) :: rest) = true) :
    hasKey rest k = false ∧ keysNodup rest = true := by
  rw [keysNodup] at h
  simp only [Bool.and_eq_true, Bool.not_eq_true'] at h
  exact h

/-- Unpacking well-formedness of a nonempty data object. -/
theorem wfData_cons (k : String) (v : Val) (rest : List (String × Val))
    (h : wfData ((k, v) :: rest) = true) :
    (k = "children" → wfKidsVal v = true) ∧ wfData rest = true := by
  rw [wfData] at h
  simp only [Bool.and_eq_true] at h
  refine ⟨fun hk => ?_, h.2⟩
  have h1 := h.1
  rw [if_pos hk] at h1
  exact h1

/-- Unpacking well-formedness of a description. -/
theorem wfVal_parts (n : Val) (h : wfVal n = true) :
    keysNodup (vdata n) = true ∧ wfData (vdata n) = true ∧
      (vname n = "text" → hasKey (vdata n) "children" = false) := by
  cases n with
  | node nm data =>
    rw [wfVal] at h
    simp only [Bool.and_eq_true] at h
    refine ⟨h.1.1, h.2, fun ht => ?_⟩
    have h2 := h.1.2
    simp only [vname] at ht
    rw [if_pos ht] at h2
    simp only [Bool.not_eq_true'] at h2
    exact h2
  | undef => exact absurd h (by simp [wfVal])
  | str v => exact absurd h (by simp [wfVal])
  | boolv v => exact absurd h (by simp [wfVal])
  | smap m => exact absurd h (by simp [wfVal])
  | handler i => exact absurd h (by simp [wfVal])
  | nodes l => exact absurd h (by simp [wfVal])

/-- For a well-formed description the implied child count is the length of
the `children` attribute in all cases. -/
theorem impliedLen_eq (n : Val) (h : wfVal n = true) :
    impliedLen n = (valNodes (lookupVal (vdata n) "children")).length := by
  rw [impliedLen]
  split
  · rename_i ht
    rw [lookupVal_miss _ _ ((wfVal_parts n h).2.2 ht)]
    rfl
  · rfl

/-- The `children` key does not carry the event sigil. -/
theorem isEventKey_children : isEventKey "children" = false := by decide

/-- A well-formed `children` value reads as a well-formed array of nodes. -/
theorem wfKidsVal_nodes (v : Val) (h : wfKidsVal v = true) :
    wfKids (valNodes v) = true := by
  cases v <;> simp_all [wfKidsVal, valNodes, wfKids]

/-- The record returned by `viewCreate` wraps the description it was given. -/
theorem viewCreate_node (n : Val) (s : EState) : (viewCreate n s).1.node = n := by
  rw [viewCreate]
  split
  · rfl
  · rfl

/-- The `children` loop of `viewCreate` yields one good record per child,
given that creation of each child yields a good record. -/
theorem good_viewCreateKids_of (e : ElemId) (l : List Val) :
    ∀ s : EState,
      (∀ c ∈ l, ∀ s1 : EState, wfVal c = true → nodeOldGood (viewCreate c s1).1 = true) →
      wfKids l = true →
      (viewCreateKids e l s).1.length = l.length ∧
        nodeOldGoodAll (viewCreateKids e l s).1 = true := by
  induction l with
  | nil =>
    intro s hc hwf
    rw [viewCreateKids]
    exact ⟨rfl, rfl⟩
  | cons c rest ih =>
    intro s hc hwf
    rw [wfKids] at hwf
    simp only [Bool.and_eq_true] at hwf
    rw [viewCreateKids]
    obtain ⟨hl, ha⟩ := ih
      (emit (updateElem (viewCreate c s).2 e fun el =>
        { el with childElems := el.childElems ++ [(viewCreate c s).1.element] })
        (.appendChild e (viewCreate c s).1.element))
      (fun x hx => hc x (List.mem_cons_of_mem _ hx)) hwf.2
    refine ⟨?_, ?_⟩
    · exact congrArg (fun m => m + 1) hl
    · show nodeOldGoodAll ((viewCreate c s).1 :: (viewCreateKids e rest _).1) = true
      rw [nodeOldGoodAll]
      simp only [Bool.and_eq_true]
      exact ⟨hc c (List.mem_cons_self _ _) s hwf.1, ha⟩

/-- The data loop of `viewCreate` yields exactly the records of the (unique)
`children` entry, all good, given the `children` loop behaves on each entry
value. -/
theorem good_viewCreateData_of (e : ElemId) :
    ∀ (entries : List (String × Val)) (s : EState),
      (∀ k v, (k, v) ∈ entries → ∀ s1 : EState, wfKids (valNodes v) = true →
        (viewCreateKids e (valNodes v) s1).1.length = (valNodes v).length ∧
          nodeOldGoodAll (viewCreateKids e (valNodes v) s1).1 = true) →
      keysNodup entries = true → wfData entries = true →
      (viewCreateData e entries s).1.length
          = (valNodes (lookupVal entries "children")).length ∧
        nodeOldGoodAll (viewCreateData e entries s).1 = true := by
  intro entries
  induction entries with
  | nil =>
    intro s hk hnd hwf
    rw [viewCreateData]
    exact ⟨rfl, rfl⟩
  | cons p rest ih =>
    obtain ⟨k, v⟩ := p
    intro s hk hnd hwf
    obtain ⟨hnd1, hnd2⟩ := keysNodup_cons k v rest hnd
    obtain ⟨hwf1, hwf2⟩ := wfData_cons k v rest hwf
    rw [viewCreateData]
    split
    · rename_i hev
      have hkc : k ≠ "children" := by
        intro hc
        rw [hc, isEventKey_children] at hev
        cases hev
      have hrec := ih (eventCreate e k v s)
        (fun k1 v1 hm => hk k1 v1 (List.mem_cons_of_mem _ hm)) hnd2 hwf2
      rwa [show lookupVal ((k, v) :: rest) "children" = lookupVal rest "children" from by
        simp only [lookupVal, lookupKV, if_neg hkc]]
    · rename_i hev
      split
      · rename_i hkc
        subst hkc
        have hkv : wfKidsVal v = true := hwf1 rfl
        have hwfk : wfKids (valNodes v) = true := wfKidsVal_nodes v hkv
        obtain ⟨hl1, ha1⟩ := hk "children" v (List.mem_cons_self _ _) s hwfk
        obtain ⟨hl2, ha2⟩ := ih (viewCreateKids e (valNodes v) s).2
          (fun k1 v1 hm => hk k1 v1 (List.mem_cons_of_mem _ hm)) hnd2 hwf2
        have hz : (viewCreateData e rest (viewCreateKids e (valNodes v) s).2).1.length = 0 := by
          rw [hl2, lookupVal_miss rest "children" hnd1]
          rfl
        refine ⟨?_, ?_⟩
        · show ((viewCreateKids e (valNodes v) s).1
              ++ (viewCreateData e rest (viewCreateKids e (valNodes v) s).2).1).length
            = (valNodes (lookupVal (("children", v) :: rest) "children")).length
          rw [List.length_append]
          rw [show lookupVal (("children", v) :: rest) "children" = v from by
            simp [lookupVal, lookupKV]]
          omega
        · show nodeOldGoodAll ((viewCreateKids e (valNodes v) s).1
              ++ (viewCreateData e rest (viewCreateKids e (valNodes v) s).2).1) = true
          rw [nodeOldGoodAll_iff]
          intro x hx
          rcases List.mem_append.mp hx with hm | hm
          · exact (nodeOldGoodAll_iff _).mp ha1 x hm
          · exact (nodeOldGoodAll_iff _).mp ha2 x hm
      · rename_i hkc
        have hrec := ih (createEntryPlain e k v s)
          (fun k1 v1 hm => hk k1 v1 (List.mem_cons_of_mem _ hm)) hnd2 hwf2
        rwa [show lookupVal ((k, v) :: rest) "children" = lookupVal rest "children" from by
          simp only [lookupVal, lookupKV, if_neg hkc]]

/-- `viewCreate` yields a good record for a well-formed description, given
the data loop behaves. -/
theorem good_viewCreate_of (n : Val) (s : EState)
    (hd : ∀ (e : ElemId) (s1 : EState), keysNodup (vdata n) = true →
      wfData (vdata n) = true →
      (viewCreateData e (vdata n) s1).1.length
          = (valNodes (lookupVal (vdata n) "children")).length ∧
        nodeOldGoodAll (viewCreateData e (vdata n) s1).1 = true)
    (hwf : wfVal n = true) : nodeOldGood (viewCreate n s).1 = true := by
  obtain ⟨hnd, hwfd, htext⟩ := wfVal_parts n hwf
  rw [viewCreate]
  split
  · rename_i ht
    show nodeOldGood (.mk n _ _ []) = true
    rw [nodeOldGood_mk]
    simp only [Bool.and_eq_true]
    refine ⟨⟨hwf, ?_⟩, rfl⟩
    rw [impliedLen, if_pos ht]
    simp
  · rename_i ht
    show nodeOldGood (.mk n _ _ (viewCreateData _ (vdata n) _).1) = true
    rw [nodeOldGood_mk]
    simp only [Bool.and_eq_true]
    refine ⟨⟨hwf, ?_⟩, (hd _ _ hnd hwfd).2⟩
    rw [impliedLen_eq n hwf]
    simp only [decide_eq_true_eq]
    exact (hd _ _ hnd hwfd).1

/-- The positional patch loop yields one good record per processed index,
given patching each pair yields a good record. -/
theorem good_viewPatchPos_of (e : ElemId) (vO : Val) :
    ∀ (lN : List Val) (olds : List NodeOld) (i : Nat) (s : EState),
      (∀ old vN, vN ∈ lN → ∀ s1 : EState, nodeOldGood old = true → wfVal vN = true →
        nodeOldGood (viewPatch old vN s1).1 = true) →
      nodeOldGoodAll olds = true → wfKids lN = true →
      (viewPatchPos e vO i olds lN s).1.length = min olds.length lN.length ∧
        nodeOldGoodAll (viewPatchPos e vO i olds lN s).1 = true := by
  intro lN
  induction lN with
  | nil =>
    intro olds i s hp ho hwf
    simp only [viewPatchPos]
    exact ⟨by simp, rfl⟩
  | cons vN vs ih =>
    intro olds i s hp ho hwf
    rw [wfKids] at hwf
    simp only [Bool.and_eq_true] at hwf
    cases olds with
    | nil =>
      simp only [viewPatchPos]
      exact ⟨by simp, rfl⟩
    | cons oldc os =>
      rw [nodeOldGoodAll] at ho
      simp only [Bool.and_eq_true] at ho
      simp only [viewPatchPos]
      split
      · obtain ⟨hl, ha⟩ := ih os (i + 1) s
          (fun o v hm s1 => hp o v (List.mem_cons_of_mem _ hm) s1) ho.2 hwf.2
        refine ⟨?_, ?_⟩
        · show (oldc :: (viewPatchPos e vO (i + 1) os vs s).1).length
            = min (oldc :: os).length (vN :: vs).length
          simp only [List.length_cons]
          omega
        · show nodeOldGoodAll (oldc :: (viewPatchPos e vO (i + 1) os vs s).1) = true
          rw [nodeOldGoodAll]
          simp only [Bool.and_eq_true]
          exact ⟨ho.1, ha⟩
      · obtain ⟨hl, ha⟩ := ih os (i + 1) (viewPatch oldc vN s).2
          (fun o v hm s1 => hp o v (List.mem_cons_of_mem _ hm) s1) ho.2 hwf.2
        have hg : nodeOldGood (viewPatch oldc vN s).1 = true :=
          hp oldc vN (List.mem_cons_self _ _) s ho.1 hwf.1
        refine ⟨?_, ?_⟩
        · show ((viewPatch oldc vN s).1
              :: (viewPatchPos e vO (i + 1) os vs (viewPatch oldc vN s).2).1).length
            = min (oldc :: os).length (vN :: vs).length
          simp only [List.length_cons]
          omega
        · show nodeOldGoodAll ((viewPatch oldc vN s).1
              :: (viewPatchPos e vO (i + 1) os vs (viewPatch oldc vN s).2).1) = true
          rw [nodeOldGoodAll]
          simp only [Bool.and_eq_true]
          exact ⟨hg, ha⟩

/-- The growing regime yields one good record per new child, given patching
and creating each child yields a good record. -/
theorem good_viewPatchGrow_of (e : ElemId) (vO : Val) :
    ∀ (lN : List Val) (olds : List NodeOld) (i : Nat) (s : EState),
      (∀ old vN, vN ∈ lN → ∀ s1 : EState, nodeOldGood old = true → wfVal vN = true →
        nodeOldGood (viewPatch old vN s1).1 = true) →
      (∀ vN, vN ∈ lN → ∀ s1 : EState, wfVal vN = true →
        nodeOldGood (viewCreate vN s1).1 = true) →
      nodeOldGoodAll olds = true → wfKids lN = true →
      (viewPatchGrow e vO i olds lN s).1.length = lN.length ∧
        nodeOldGoodAll (viewPatchGrow e vO i olds lN s).1 = true := by
  intro lN
  induction lN with
  | nil =>
    intro olds i s hp hc ho hwf
    simp only [viewPatchGrow]
    exact ⟨rfl, rfl⟩
  | cons vN vs ih =>
    intro olds i s hp hc ho hwf
    rw [wfKids] at hwf
    simp only [Bool.and_eq_true] at hwf
    cases olds with
    | nil =>
      simp only [viewPatchGrow]
      have hg : nodeOldGood (viewCreate vN s).1 = true :=
        hc vN (List.mem_cons_self _ _) s hwf.1
      obtain ⟨hl, ha⟩ := ih []
        (i + 1)
        (emit (updateElem (viewCreate vN s).2 e fun el =>
          { el with childElems := el.childElems ++ [(viewCreate vN s).1.element] })
          (.appendChild e (viewCreate vN s).1.element))
        (fun o v hm s1 => hp o v (List.mem_cons_of_mem _ hm) s1)
        (fun v hm s1 => hc v (List.mem_cons_of_mem _ hm) s1) rfl hwf.2
      refine ⟨?_, ?_⟩
      · exact congrArg (fun m => m + 1) hl
      · show nodeOldGoodAll ((viewCreate vN s).1 :: (viewPatchGrow e vO (i + 1) [] vs _).1) = true
        rw [nodeOldGoodAll]
        simp only [Bool.and_eq_true]
        exact ⟨hg, ha⟩
    | cons oldc os =>
      rw [nodeOldGoodAll] at ho
      simp only [Bool.and_eq_true] at ho
      simp only [viewPatchGrow]
      split
      · obtain ⟨hl, ha⟩ := ih os (i + 1) s
          (fun o v hm s1 => hp o v (List.mem_cons_of_mem _ hm) s1)
          (fun v hm s1 => hc v (List.mem_cons_of_mem _ hm) s1) ho.2 hwf.2
        refine ⟨congrArg (fun m => m + 1) hl, ?_⟩
        · show nodeOldGoodAll (oldc :: (viewPatchGrow e vO (i + 1) os vs s).1) = true
          rw [nodeOldGoodAll]
          simp only [Bool.and_eq_true]
          exact ⟨ho.1, ha⟩
      · obtain ⟨hl, ha⟩ := ih os (i + 1) (viewPatch oldc vN s).2
          (fun o v hm s1 => hp o v (List.mem_cons_of_mem _ hm) s1)
          (fun v hm s1 => hc v (List.mem_cons_of_mem _ hm) s1) ho.2 hwf.2
        have hg : nodeOldGood (viewPatch oldc vN s).1 = true :=
          hp oldc vN (List.mem_cons_self _ _) s ho.1 hwf.1
        refine ⟨congrArg (fun m => m + 1) hl, ?_⟩
        · show nodeOldGoodAll ((viewPatch oldc vN s).1
              :: (viewPatchGrow e vO (i + 1) os vs (viewPatch oldc vN s).2).1) = true
          rw [nodeOldGoodAll]
          simp only [Bool.and_eq_true]
          exact ⟨hg, ha⟩

/-- The `children` case of the update loop always leaves exactly one good
record per new child, in all three regimes. -/
theorem good_viewPatchKids_of (e : ElemId) (ch : List NodeOld) (vO : Val) (lN : List Val)
    (s : EState)
    (hp : ∀ old vN, vN ∈ lN → ∀ s1 : EState, nodeOldGood old = true → wfVal vN = true →
      nodeOldGood (viewPatch old vN s1).1 = true)
    (hc : ∀ vN, vN ∈ lN → ∀ s1 : EState, wfVal vN = true →
      nodeOldGood (viewCreate vN s1).1 = true)
    (ho : nodeOldGoodAll ch = true) (hwf : wfKids lN = true) :
    (viewPatchKids e ch vO lN s).1.length = lN.length ∧
      nodeOldGoodAll (viewPatchKids e ch vO lN s).1 = true := by
  rw [viewPatchKids]
  split
  · rename_i hmn
    obtain ⟨hl, ha⟩ := good_viewPatchPos_of e vO lN ch 0 s hp ho hwf
    refine ⟨?_, ?_⟩
    · show (viewPatchPos e vO 0 ch lN s).1.length = lN.length
      rw [hl, hmn]
      omega
    · show nodeOldGoodAll (viewPatchPos e vO 0 ch lN s).1 = true
      exact ha
  · split
    · rename_i hmn hgt
      obtain ⟨hl, ha⟩ := good_viewPatchPos_of e vO lN ch 0 s hp ho hwf
      refine ⟨?_, ?_⟩
      · show (viewPatchPos e vO 0 ch lN s).1.length = lN.length
        rw [hl]
        omega
      · show nodeOldGoodAll (viewPatchPos e vO 0 ch lN s).1 = true
        exact ha
    · rename_i hmn hle
      exact good_viewPatchGrow_of e vO lN ch 0 s hp hc ho hwf

/-- The update loop preserves goodness of the child record list; whenever a
`children` entry is walked the list ends with exactly one record per new
child, and when none is walked the list is untouched. -/
theorem good_viewPatchData1_of (e : ElemId) (od nd : List (String × Val)) :
    ∀ (en : List (String × Val)) (ch : List NodeOld) (s : EState),
      (∀ (ch1 : List NodeOld) (vO : Val) (s1 : EState), nodeOldGoodAll ch1 = true →
        (viewPatchKids e ch1 vO (valNodes (lookupVal nd "children")) s1).1.length
            = (valNodes (lookupVal nd "children")).length ∧
          nodeOldGoodAll
            (viewPatchKids e ch1 vO (valNodes (lookupVal nd "children")) s1).1 = true) →
      nodeOldGoodAll ch = true →
      (Val.eqb (lookupVal od "children") (lookupVal nd "children") = true →
        ch.length = (valNodes (lookupVal nd "children")).length) →
      nodeOldGoodAll (viewPatchData1 e od nd ch en s).1 = true ∧
        (hasKey en "children" = true →
          (viewPatchData1 e od nd ch en s).1.length
            = (valNodes (lookupVal nd "children")).length) ∧
        (hasKey en "children" = false → (viewPatchData1 e od nd ch en s).1 = ch) := by
  intro en
  induction en with
  | nil =>
    intro ch s hpk hch hinv
    rw [viewPatchData1]
    refine ⟨hch, fun hk => ?_, fun _ => rfl⟩
    simp [hasKey, lookupKV] at hk
  | cons p rest ih =>
    obtain ⟨k, v⟩ := p
    intro ch s hpk hch hinv
    rw [viewPatchData1]
    split
    · rename_i heqb
      obtain ⟨A, B, C⟩ := ih ch s hpk hch hinv
      refine ⟨A, fun hk => ?_, fun hk => ?_⟩
      · by_cases hkc : k = "children"
        · subst hkc
          cases hr : hasKey rest "children" with
          | true => exact B hr
          | false =>
            rw [C hr]
            exact hinv heqb
        · refine B ?_
          rw [hasKey, lookupKV, if_neg hkc] at hk
          exact hk
      · by_cases hkc : k = "children"
        · rw [hasKey, lookupKV, if_pos hkc] at hk
          simp at hk
        · refine C ?_
          rw [hasKey, lookupKV, if_neg hkc] at hk
          exact hk
    · rename_i heqb
      split
      · rename_i hev
        have hkc : k ≠ "children" := by
          intro hc
          rw [hc, isEventKey_children] at hev
          cases hev
        obtain ⟨A, B, C⟩ := ih ch (eventPatch e k (lookupVal nd k) s) hpk hch hinv
        refine ⟨A, fun hk => ?_, fun hk => ?_⟩
        · refine B ?_
          rw [hasKey, lookupKV, if_neg hkc] at hk
          exact hk
        · refine C ?_
          rw [hasKey, lookupKV, if_neg hkc] at hk
          exact hk
      · split
        · rename_i hev hkc
          subst hkc
          obtain ⟨hl1, ha1⟩ := hpk ch (lookupVal od "children") s hch
          obtain ⟨A, B, C⟩ := ih
            (viewPatchKids e ch (lookupVal od "children")
              (valNodes (lookupVal nd "children")) s).1
            (viewPatchKids e ch (lookupVal od "children")
              (valNodes (lookupVal nd "children")) s).2
            hpk ha1 (fun _ => hl1)
          refine ⟨A, fun hk => ?_, fun hk => ?_⟩
          · cases hr : hasKey rest "children" with
            | true => exact B hr
            | false =>
              rw [C hr]
              exact hl1
          · rw [hasKey, lookupKV, if_pos rfl] at hk
            simp at hk
        · rename_i hev hkc
          obtain ⟨A, B, C⟩ := ih ch
            (patchEntryPlain e k (lookupVal od k) (lookupVal nd k) s) hpk hch hinv
          refine ⟨A, fun hk => ?_, fun hk => ?_⟩
          · refine B ?_
            rw [hasKey, lookupKV, if_neg hkc] at hk
            exact hk
          · refine C ?_
            rw [hasKey, lookupKV, if_neg hkc] at hk
            exact hk

/-- `viewPatch` yields a good record from a good record and a well-formed new
description, given creation and the update loop behave. -/
theorem good_viewPatch_of (old : NodeOld) (nNew : Val) (s : EState)
    (hc : ∀ s1 : EState, wfVal nNew = true → nodeOldGood (viewCreate nNew s1).1 = true)
    (hd : ∀ (e : ElemId) (ch : List NodeOld) (en : List (String × Val)) (s1 : EState),
      nodeOldGoodAll ch = true →
      (Val.eqb (lookupVal (vdata old.node) "children")
          (lookupVal (vdata nNew) "children") = true →
        ch.length = (valNodes (lookupVal (vdata nNew) "children")).length) →
      nodeOldGoodAll (viewPatchData1 e (vdata old.node) (vdata nNew) ch en s1).1 = true ∧
        (hasKey en "children" = true →
          (viewPatchData1 e (vdata old.node) (vdata nNew) ch en s1).1.length
            = (valNodes (lookupVal (vdata nNew) "children")).length) ∧
        (hasKey en "children" = false →
          (viewPatchData1 e (vdata old.node) (vdata nNew) ch en s1).1 = ch))
    (hgood : nodeOldGood old = true) (hwf : wfVal nNew = true) :
    nodeOldGood (viewPatch old nNew s).1 = true := by
  have hg := hgood
  rw [NodeOld.eta old, nodeOldGood_mk] at hg
  simp only [Bool.and_eq_true, decide_eq_true_eq] at hg
  obtain ⟨⟨hwfo, hlen⟩, hallo⟩ := hg
  rw [NodeOld.eta (viewPatch old nNew s).1, nodeOldGood_mk]
  simp only [Bool.and_eq_true, decide_eq_true_eq, viewPatch_node]
  by_cases hname : vname old.node ≠ vname nNew
  · have hch : (viewPatch old nNew s).1.children = (viewCreate nNew s).1.children := by
      rw [viewPatch, if_pos hname]
      rfl
    have hfr := hc s hwf
    rw [NodeOld.eta (viewCreate nNew s).1, nodeOldGood_mk] at hfr
    simp only [Bool.and_eq_true, decide_eq_true_eq, viewCreate_node] at hfr
    refine ⟨⟨hwf, ?_⟩, ?_⟩
    · rw [hch]
      exact hfr.1.2
    · rw [hch]
      exact hfr.2
  · have hinv : Val.eqb (lookupVal (vdata old.node) "children")
        (lookupVal (vdata nNew) "children") = true →
        old.children.length = (valNodes (lookupVal (vdata nNew) "children")).length := by
      intro heqb
      rw [hlen, impliedLen_eq old.node hwfo, (Val.eqb_eq _ _).mp heqb]
    obtain ⟨A, B, C⟩ := hd old.element old.children (vdata nNew) s hallo hinv
    have hch : (viewPatch old nNew s).1.children =
        (viewPatchRemove old.element (vname old.node) (vdata old.node) (vdata nNew)
          (viewPatchData1 old.element (vdata old.node) (vdata nNew) old.children
            (vdata nNew) s).1
          (vdata old.node)
          (viewPatchData1 old.element (vdata old.node) (vdata nNew) old.children
            (vdata nNew) s).2).1 := by
      rw [viewPatch, if_neg hname]
      rfl
    generalize hgen : viewPatchData1 old.element (vdata old.node) (vdata nNew)
      old.children (vdata nNew) s = q at A B C hch
    cases hk : hasKey (vdata nNew) "children" with
    | true =>
      have hkeep := viewPatchRemove_children_keep old.element (vname old.node)
        (vdata old.node) (vdata nNew) q.1 (vdata old.node) q.2
        (fun p hp hpc => by rw [hpc]; exact hk)
      refine ⟨⟨hwf, ?_⟩, ?_⟩
      · rw [hch, hkeep, B hk, impliedLen_eq nNew hwf]
      · rw [hch, hkeep]
        exact A
    | false =>
      have hC := C hk
      cases hko : hasKey (vdata old.node) "children" with
      | true =>
        obtain ⟨v0, hv0⟩ : ∃ v0, lookupKV (vdata old.node) "children" = some v0 := by
          rw [hasKey] at hko
          cases hlk : lookupKV (vdata old.node) "children" with
          | none => rw [hlk] at hko; simp at hko
          | some v0 => exact ⟨v0, rfl⟩
        have hmem : ("children", v0) ∈ vdata old.node := lookupKV_mem hv0
        have hdrop := viewPatchRemove_children_drop old.element (vname old.node)
          (vdata old.node) (vdata nNew) q.1 (vdata old.node) q.2 v0 hmem hk
        refine ⟨⟨hwf, ?_⟩, ?_⟩
        · rw [hch, hdrop, impliedLen_eq nNew hwf, lookupVal_miss _ _ hk]
          rfl
        · rw [hch, hdrop]
          rfl
      | false =>
        have hkeep := viewPatchRemove_children_keep old.element (vname old.node)
          (vdata old.node) (vdata nNew) q.1 (vdata old.node) q.2
          (fun p hp hpc => by
            have h1 := hasKey_of_mem hp
            rw [hpc] at h1
            rw [h1] at hko
            cases hko)
        refine ⟨⟨hwf, ?_⟩, ?_⟩
        · rw [hch, hkeep, hC, hlen, impliedLen_eq old.node hwfo,
            impliedLen_eq nNew hwf, lookupVal_miss _ _ hko, lookupVal_miss _ _ hk]
        · rw [hch, hkeep, hC]
          exact hallo

/-- Master strong induction: every entry point of the creation / patching
engine establishes or preserves the reachability invariant, at every
description size. -/
theorem good_engine : ∀ K : Nat,
    (∀ n s, sizeOf n ≤ K → wfVal n = true → nodeOldGood (viewCreate n s).1 = true) ∧
    (∀ e l s, sizeOf l ≤ K → wfKids l = true →
      (viewCreateKids e l s).1.length = l.length ∧
        nodeOldGoodAll (viewCreateKids e l s).1 = true) ∧
    (∀ e entries s, sizeOf entries ≤ K → keysNodup entries = true → wfData entries = true →
      (viewCreateData e entries s).1.length
          = (valNodes (lookupVal entries "children")).length ∧
        nodeOldGoodAll (viewCreateData e entries s).1 = true) ∧
    (∀ old n s, sizeOf n ≤ K → nodeOldGood old = true → wfVal n = true →
      nodeOldGood (viewPatch old n s).1 = true) ∧
    (∀ e od nd ch en s, sizeOf nd ≤ K → nodeOldGoodAll ch = true → wfData nd = true →
      (Val.eqb (lookupVal od "children") (lookupVal nd "children") = true →
        ch.length = (valNodes (lookupVal nd "children")).length) →
      nodeOldGoodAll (viewPatchData1 e od nd ch en s).1 = true ∧
        (hasKey en "children" = true →
          (viewPatchData1 e od nd ch en s).1.length
            = (valNodes (lookupVal nd "children")).length) ∧
        (hasKey en "children" = false → (viewPatchData1 e od nd ch en s).1 = ch)) ∧
    (∀ e ch vO lN s, sizeOf lN ≤ K → nodeOldGoodAll ch = true → wfKids lN = true →
      (viewPatchKids e ch vO lN s).1.length = lN.length ∧
        nodeOldGoodAll (viewPatchKids e ch vO lN s).1 = true) := by
  intro K
  induction K with
  | zero =>
    refine ⟨fun n s h => absurd h ?_, fun e l s h => absurd h ?_,
      fun e en s h => absurd h ?_, fun o n s h => absurd h ?_,
      fun e od nd ch en s h => absurd h ?_, fun e ch vO lN s h => absurd h ?_⟩
    · cases n <;> simp
    · cases l <;> simp
    · cases en <;> simp
    · cases n <;> simp
    · cases nd <;> simp
    · cases lN <;> simp
  | succ K ih =>
    obtain ⟨ihC, ihCK, ihCD, ihP, ihPD, ihPK⟩ := ih
    have hCD : ∀ e entries s, sizeOf entries ≤ K + 1 → keysNodup entries = true →
        wfData entries = true →
        (viewCreateData e entries s).1.length
            = (valNodes (lookupVal entries "children")).length ∧
          nodeOldGoodAll (viewCreateData e entries s).1 = true := by
      intro e entries s hsz hnd hwf
      refine good_viewCreateData_of e entries s (fun k v hm s1 hwfk => ?_) hnd hwf
      have hv := sizeOf_entry_lt hm
      have hl := sizeOf_valNodes_le v
      exact ihCK e (valNodes v) s1 (by omega) hwfk
    have hC : ∀ n s, sizeOf n ≤ K + 1 → wfVal n = true →
        nodeOldGood (viewCreate n s).1 = true := by
      intro n s hsz hwf
      refine good_viewCreate_of n s (fun e s1 hnd hwfd => ?_) hwf
      exact hCD e (vdata n) s1 (le_trans (sizeOf_vdata_le n) hsz) hnd hwfd
    have hCK : ∀ e l s, sizeOf l ≤ K + 1 → wfKids l = true →
        (viewCreateKids e l s).1.length = l.length ∧
          nodeOldGoodAll (viewCreateKids e l s).1 = true := by
      intro e l s hsz hwf
      refine good_viewCreateKids_of e l s (fun c hm s1 hwfc => ?_) hwf
      have := sizeOf_mem_lt hm
      exact ihC c s1 (by omega) hwfc
    have hPK : ∀ e ch vO lN s, sizeOf lN ≤ K + 1 → nodeOldGoodAll ch = true →
        wfKids lN = true →
        (viewPatchKids e ch vO lN s).1.length = lN.length ∧
          nodeOldGoodAll (viewPatchKids e ch vO lN s).1 = true := by
      intro e ch vO lN s hsz hch hwf
      refine good_viewPatchKids_of e ch vO lN s (fun old vN hm s1 hgo hwfn => ?_)
        (fun vN hm s1 hwfn => ?_) hch hwf
      · have := sizeOf_mem_lt hm
        exact ihP old vN s1 (by omega) hgo hwfn
      · have := sizeOf_mem_lt hm
        exact ihC vN s1 (by omega) hwfn
    have hPD : ∀ e od nd ch en s, sizeOf nd ≤ K + 1 → nodeOldGoodAll ch = true →
        wfData nd = true →
        (Val.eqb (lookupVal od "children") (lookupVal nd "children") = true →
          ch.length = (valNodes (lookupVal nd "children")).length) →
        nodeOldGoodAll (viewPatchData1 e od nd ch en s).1 = true ∧
          (hasKey en "children" = true →
            (viewPatchData1 e od nd ch en s).1.length
              = (valNodes (lookupVal nd "children")).length) ∧
          (hasKey en "children" = false → (viewPatchData1 e od nd ch en s).1 = ch) := by
      intro e od nd ch en s hsz hch hwfd hinv
      refine good_viewPatchData1_of e od nd en ch s (fun ch1 vO s1 hch1 => ?_) hch hinv
      exact hPK e ch1 vO (valNodes (lookupVal nd "children")) s1
        (le_trans (sizeOf_lookup_le nd "children") hsz) hch1 (wfData_children nd hwfd)
    have hP : ∀ old n s, sizeOf n ≤ K + 1 → nodeOldGood old = true → wfVal n = true →
        nodeOldGood (viewPatch old n s).1 = true := by
      intro old n s hsz hgo hwf
      refine good_viewPatch_of old n s (fun s1 hw => hC n s1 hsz hw)
        (fun e ch en s1 hch hinv => ?_) hgo hwf
      exact hPD e (vdata old.node) (vdata n) ch en s1
        (le_trans (sizeOf_vdata_le n) hsz) hch ((wfVal_parts n hwf).2.1) hinv
    exact ⟨hC, hCK, hCD, hP, hPD, hPK⟩

/-- C8: for every reconciliation record reachable from the root — one built
by `viewCreate` from a well-formed description, or one rebuilt by `viewPatch`
from a reachable record and a well-formed description — after the completed
create or patch operation the length of the record's child-record list equals
the number of children implied by its stored last description (the length of
its `children` attribute, or zero when the `children` key is absent or the
node is a text node), recursively at every record of the subtree
(`nodeOldInv`); moreover reachability (`nodeOldGood`) is itself preserved,
so the invariant holds after any completed sequence of create and patch
operations. -/
theorem record_children_length_invariant :
    (∀ (n : Val) (s : EState), wfVal n = true →
      nodeOldGood (viewCreate n s).1 = true ∧ nodeOldInv (viewCreate n s).1 = true) ∧
    (∀ (r : NodeOld) (d : Val) (s : EState), nodeOldGood r = true → wfVal d = true →
      nodeOldGood (viewPatch r d s).1 = true ∧ nodeOldInv (viewPatch r d s).1 = true) := by
  constructor
  · intro n s hwf
    have hg := (good_engine (sizeOf n)).1 n s le_rfl hwf
    exact ⟨hg, nodeOldGood_inv _ hg⟩
  · intro r d s hr hwf
    have hg := (good_engine (sizeOf d)).2.2.2.1 r d s le_rfl hr hwf
    exact ⟨hg, nodeOldGood_inv _ hg⟩

/-- The children-length invariant at a concrete create followed by a patch
that drops the `children` key. -/
theorem record_children_length_invariant_witness :
    wfVal (Val.node "div" [("children", Val.nodes [Val.node "p" []])]) = true ∧
    nodeOldInv (viewCreate (Val.node "div"
      [("children", Val.nodes [Val.node "p" []])]) initES).1 = true ∧
    nodeOldInv (viewPatch (viewCreate (Val.node "div"
      [("children", Val.nodes [Val.node "p" []])]) initES).1
      (Val.node "div" []) (viewCreate (Val.node "div"
      [("children", Val.nodes [Val.node "p" []])]) initES).2).1 = true :=
  ⟨rfl,
   (record_children_length_invariant.1
     (Val.node "div" [("children", Val.nodes [Val.node "p" []])]) initES rfl).2,
   (record_children_length_invariant.2 _ (Val.node "div" []) _
     (record_children_length_invariant.1
       (Val.node "div" [("children", Val.nodes [Val.node "p" []])]) initES rfl).1 rfl).2⟩

/-- Handle preservation at a concrete same-kind patch. -/
theorem patch_same_kind_keeps_handles_witness :
    vname (NodeOld.mk (Val.node "div" []) 0 0 []).node
        = vname (Val.node "div" [("id", Val.str "x")]) ∧
    ((viewPatch (NodeOld.mk (Val.node "div" []) 0 0 [])
        (Val.node "div" [("id", Val.str "x")]) initES).1).element = 0 :=
  ⟨rfl,
   (patch_same_kind_keeps_handles (NodeOld.mk (Val.node "div" []) 0 0 [])
     (Val.node "div" [("id", Val.str "x")]) initES rfl).1⟩

/-- A concrete full dispatch cycle on a one-driver registry. -/
theorem run_dispatch_cycle_witness :
    wfRegistry [("x", (⟨some 5, true⟩ : MDriver Nat))] = true ∧
    moonRun [("x", (⟨some 5, true⟩ : MDriver Nat))] (fun _ => [("x", 7)])
      = ([RunEvent.inputCalled "x", RunEvent.appCalled [("x", 5)],
          RunEvent.outputCalled "x" 7], false) :=
  ⟨rfl,
   (run_dispatch_cycle [("x", (⟨some 5, true⟩ : MDriver Nat))] (fun _ => [("x", 7)])
     rfl (by decide)).trans (by decide)⟩

/-- A concrete aborted dispatch cycle: the entry before the offending one is
applied, the offending and later entries are not. -/
theorem run_output_error_aborts_witness :
    (∀ p ∈ [("a", (⟨some 0, true⟩ : MDriver Nat))], (p.2).input.isSome = true) ∧
    moonRun [("a", (⟨some 0, true⟩ : MDriver Nat))]
        (fun _ => [("a", 2), ("b", 3), ("a", 4)])
      = ([RunEvent.inputCalled "a", RunEvent.appCalled [("a", 0)],
          RunEvent.outputCalled "a" 2, RunEvent.error (.unknownDriver "b")], true) :=
  ⟨by decide,
   (run_output_error_aborts [("a", (⟨some 0, true⟩ : MDriver Nat))]
     (fun _ => [("a", 2), ("b", 3), ("a", 4)]) [("a", 2)] [("a", 4)] "b" 3
     (by decide) rfl
     (by
       intro p hp
       rw [List.mem_singleton] at hp
       subst hp
       exact ⟨⟨some 0, true⟩, rfl, rfl⟩)
     (by
       intro dr hdr
       simp [lookupKV] at hdr)).trans (by decide)⟩

/-- A concrete structural replacement: a `div` record patched with a `span`
description. -/
theorem patch_structural_replacement_witness :
    vname (NodeOld.mk (Val.node "div" [("class", Val.str "c")]) 0 0 []).node
        ≠ vname (Val.node "span" []) ∧
    (NodeOld.mk (Val.node "div" [("class", Val.str "c")]) 0 0 []).element
        < ({ elems := [({ tag := "div" } : Elem)] } : EState).elems.length ∧
    (viewPatch (NodeOld.mk (Val.node "div" [("class", Val.str "c")]) 0 0 [])
        (Val.node "span" []) ({ elems := [({ tag := "div" } : Elem)] } : EState)).1.node
      = Val.node "span" [] :=
  ⟨by decide, by decide,
   (patch_structural_replacement (NodeOld.mk (Val.node "div" [("class", Val.str "c")]) 0 0 [])
     (Val.node "span" []) ({ elems := [({ tag := "div" } : Elem)] } : EState)
     (by decide) (by decide)).1⟩

/-- Concrete shrinking and growing children patches: three records against
two descriptions, and one record against two descriptions. -/
theorem patch_children_shrink_grow_witness :
    ([NodeOld.mk (Val.node "p" []) 1 0 [], NodeOld.mk (Val.node "p" []) 2 0 [],
        NodeOld.mk (Val.node "p" []) 3 0 []].length
      > [Val.node "p" [], Val.node "p" []].length) ∧
    (viewPatchKids 0 [NodeOld.mk (Val.node "p" []) 1 0 [],
        NodeOld.mk (Val.node "p" []) 2 0 [], NodeOld.mk (Val.node "p" []) 3 0 []]
        Val.undef [Val.node "p" [], Val.node "p" []] initES).1.length = 2 ∧
    ([NodeOld.mk (Val.node "p" []) 1 0 []].length
      < [Val.node "p" [], Val.node "p" []].length) ∧
    (viewPatchKids 0 [NodeOld.mk (Val.node "p" []) 1 0 []]
        Val.undef [Val.node "p" [], Val.node "p" []] initES).1.length = 2 :=
  ⟨by decide,
   ((patch_children_shrink_grow 0 [NodeOld.mk (Val.node "p" []) 1 0 [],
       NodeOld.mk (Val.node "p" []) 2 0 [], NodeOld.mk (Val.node "p" []) 3 0 []]
       Val.undef [Val.node "p" [], Val.node "p" []] initES).1 (by decide)).2.1,
   by decide,
   ((patch_children_shrink_grow 0 [NodeOld.mk (Val.node "p" []) 1 0 []]
       Val.undef [Val.node "p" [], Val.node "p" []] initES).2 (by decide)).1⟩

/-- Concrete event rebinding: `@click` bound to handler 1, patched to
handler 2, on a `button` element. -/
theorem event_rebinding_witness :
    ¬ "button" = "text" ∧
    viewDispatch (viewPatch
        (viewCreate (Val.node "button" [("@click", Val.handler 1)]) initES).1
        (Val.node "button" [("@click", Val.handler 2)])
        (viewCreate (Val.node "button" [("@click", Val.handler 1)]) initES).2).2
      (viewCreate (Val.node "button" [("@click", Val.handler 1)]) initES).1.element
      "click" = Val.handler 2 :=
  ⟨by decide, (event_rebinding "button" 1 2 (by decide)).2⟩

/-- The default-value cache at concrete inputs: a generic key removal emits a
property restore, and a cache miss constructs and caches one blank element. -/
theorem patch_default_value_cache_witness :
    cacheHas initES "div" = false ∧
    (∃ w, Eff.setProp 0 "id" w ∈ (viewPatch
        (NodeOld.mk (Val.node "div" [("id", Val.str "x")]) 0 0 [])
        (Val.node "div" []) initES).2.trace) ∧
    removeDataProperty 0 "div" "id" initES =
      setPropEl ({ initES with
        elems := initES.elems ++ [({ tag := "div" } : Elem)],
        cache := initES.cache ++ [("div", initES.elems.length)],
        trace := initES.trace ++ [Eff.createBlank "div" initES.elems.length] } : EState)
        0 "id" Val.undef :=
  ⟨rfl,
   patch_default_value_cache.1 (NodeOld.mk (Val.node "div" [("id", Val.str "x")]) 0 0 [])
     (Val.node "div" []) initES "id" (Val.str "x") rfl (List.mem_singleton.mpr rfl)
     rfl (by decide) (by decide) (by decide) (by decide) (by decide) (by decide)
     (by decide),
   patch_default_value_cache.2.1 0 "div" "id" initES rfl⟩

/-- Concrete style removal through the generic restoration path. -/
theorem patch_style_removal_generic_witness :
    ("style", Val.str "c")
        ∈ vdata (NodeOld.mk (Val.node "div" [("style", Val.str "c")]) 0 0 []).node ∧
    hasKey (vdata (Val.node "div" [])) "style" = false ∧
    (∃ w, Eff.setProp 0 "style" w ∈ (viewPatch
        (NodeOld.mk (Val.node "div" [("style", Val.str "c")]) 0 0 [])
        (Val.node "div" []) initES).2.trace) :=
  ⟨List.mem_singleton.mpr rfl, rfl,
   patch_style_removal_generic.2.2
     (NodeOld.mk (Val.node "div" [("style", Val.str "c")]) 0 0 [])
     (Val.node "div" []) initES (Val.str "c") rfl (List.mem_singleton.mpr rfl) rfl⟩
